import Mathlib

/-!
Verification development for the CLox compiler + bytecode VM.

Shallow embedding of the C sources into Lean 4:
* values (inc/value.h, value.c),
* the open-addressing hash table and the interned-string pool
  (table.c, object.c),
* the mark-sweep collector's string-prune and sweep phases (memory.c),
* the VM's value stack, call frames, upvalue list and selected opcode
  handlers (vm.c),
* the Pratt-parser rule table and expression compilation (compiler.c).

Machine integers are modelled as Nat/Int with explicit wrap-around where the
C computation wraps (the FNV-1a hash); pointers into the value stack are
modelled as Int offsets from the stack base so that out-of-range pointer
arithmetic in the source is representable; object pointers are modelled as
indices (ids) into an explicit heap; fallible or possibly-divergent C code
(unbounded probe loops, type-confusing accesses) returns Option, with none
meaning the C computation would diverge or hit undefined behaviour.
-/

set_option linter.unusedVariables false

namespace CLox

/-! ### Values (inc/value.h, value.c)

A Value is the tagged union {nil, bool, number, object}.  Numbers in the
source are IEEE-754 doubles; no claim below depends on float arithmetic, so
number payloads are carried as opaque Int data.  Object pointers are heap
ids. -/

inductive Value where
  | vnil
  | vbool (b : Bool)
  | vnum (n : Int)
  | vobj (oid : Nat)
deriving DecidableEq

/-- IS_NIL(value) from inc/value.h. -/
def isNil : Value → Bool
  | .vnil => true
  | _ => false

/-! ### Interned strings and the hash table (table.c, object.c)

An ObjectString is modelled by its pointer identity (`oid`), its byte
content (`chars`, bytes as Nat) and its stored 32-bit FNV-1a hash.  C
pointer equality (`entry->key == key`) is `oid` equality. -/

structure ObjStr where
  oid : Nat
  chars : List Nat
  hash : Nat
deriving DecidableEq

def U32 : Nat := 4294967296

/-- hash_string from object.c: FNV-1a over the bytes, with 32-bit
wrap-around multiplication; the cast to uint8_t is the mod 256. -/
def hash_string (key : List Nat) : Nat :=
  key.foldl (fun h c => ((h ^^^ (c % 256)) * 16777619) % U32) 2166136261

/-- Entry from inc/table.h: key NULL is modelled as key = none. -/
structure Entry where
  key : Option ObjStr
  value : Value
deriving DecidableEq

def Entry.dfl : Entry := ⟨none, .vnil⟩

/-- An empty, never-used slot: key NULL and value nil. -/
def Entry.isEmptySlot (e : Entry) : Prop := e.key = none ∧ e.value = .vnil

instance (e : Entry) : Decidable e.isEmptySlot := by
  unfold Entry.isEmptySlot; infer_instance

/-- A tombstone: key NULL but a non-nil value (table_del stores true). -/
def Entry.isTomb (e : Entry) : Prop := e.key = none ∧ e.value ≠ .vnil

instance (e : Entry) : Decidable e.isTomb := by
  unfold Entry.isTomb; infer_instance

/-- Table from inc/table.h.  The capacity field of the C struct always
equals the length of the entries array, so it is represented by the
length. -/
structure Table where
  count : Nat
  entries : List Entry
deriving DecidableEq

def Table.capacity (t : Table) : Nat := t.entries.length

def Table.entryAt (t : Table) (i : Nat) : Entry := t.entries.getD i Entry.dfl

def keyAt (t : Table) (i : Nat) : Option ObjStr := (t.entryAt i).key

/-- init_table from table.c. -/
def init_table : Table := ⟨0, []⟩

/-- The body of find_entry's for(;;) probe loop (table.c).  `index` is the
current probe index, `tomb` the first tombstone seen so far.  The C loop
has no bound; fuel exhaustion (none) models divergence, which real callers
never hit because the load factor keeps an empty slot around. -/
def find_entry_loop (entries : List Entry) (cap : Nat) (key : ObjStr) :
    Nat → Nat → Option Nat → Option Nat
  | 0, _, _ => none
  | fuel + 1, index, tomb =>
    match (entries.getD index Entry.dfl).key with
    | none =>
      if isNil (entries.getD index Entry.dfl).value then
        some (tomb.getD index)
      else
        find_entry_loop entries cap key fuel ((index + 1) % cap) (some (tomb.getD index))
    | some k =>
      if k.oid = key.oid then some index
      else find_entry_loop entries cap key fuel ((index + 1) % cap) tomb

/-- find_entry from table.c, starting at key->hash % capacity.  Returns the
index of the chosen entry. -/
def find_entry (entries : List Entry) (cap : Nat) (key : ObjStr) : Option Nat :=
  find_entry_loop entries cap key cap (key.hash % cap) none

/-- GROW_CAPACITY from inc/memory.h. -/
def grow_capacity (c : Nat) : Nat := if c < 8 then 8 else c * 2

/-- The body of adjust_capacity's re-insertion loop (table.c): skip
key-less entries, re-find the destination in the new array, write the
binding, recount. -/
def adjust_step (cap : Nat) (acc : Option (List Entry × Nat)) (e : Entry) :
    Option (List Entry × Nat) :=
  match acc with
  | none => none
  | some (entries, count) =>
    match e.key with
    | none => some (entries, count)
    | some k =>
      match find_entry entries cap k with
      | none => none
      | some i => some (entries.set i ⟨some k, e.value⟩, count + 1)

/-- adjust_capacity from table.c: allocate a zeroed array, re-insert every
keyed entry through find_entry, recount. -/
def adjust_capacity (t : Table) (cap : Nat) : Option Table :=
  (t.entries.foldl (adjust_step cap) (some (List.replicate cap Entry.dfl, 0))).map
    (fun p => { count := p.2, entries := p.1 })

/-- The load-factor test `count + 1 > capacity * TABLE_MAX_LOAD` from
table_set; TABLE_MAX_LOAD is 0.75 and capacities make the product exact,
so the comparison is the exact rational one. -/
def loadExceeded (t : Table) : Bool := 4 * (t.count + 1) > 3 * t.capacity

/-- table_set from table.c: grow when the load factor would be exceeded,
probe, record is_new_key, bump count only when a truly empty (non
tombstone) slot is consumed, write the binding. -/
def table_set (t : Table) (key : ObjStr) (value : Value) : Option (Bool × Table) :=
  match (if loadExceeded t then adjust_capacity t (grow_capacity t.capacity) else some t) with
  | none => none
  | some t =>
    match find_entry t.entries t.capacity key with
    | none => none
    | some i =>
      let e := t.entryAt i
      let isNew := e.key.isNone
      let count := if isNew && isNil e.value then t.count + 1 else t.count
      some (isNew, { count := count, entries := t.entries.set i ⟨some key, value⟩ })

/-- table_get from table.c.  some (some v) = found, some none = returns
false, none = the probe loop would diverge. -/
def table_get (t : Table) (key : ObjStr) : Option (Option Value) :=
  if t.count = 0 then some none
  else
    match find_entry t.entries t.capacity key with
    | none => none
    | some i =>
      let e := t.entryAt i
      match e.key with
      | none => some none
      | some _ => some (some e.value)

/-- table_del from table.c: tombstone the entry (key cleared, value true)
without touching count. -/
def table_del (t : Table) (key : ObjStr) : Option (Bool × Table) :=
  if t.count = 0 then some (false, t)
  else
    match find_entry t.entries t.capacity key with
    | none => none
    | some i =>
      let e := t.entryAt i
      match e.key with
      | none => some (false, t)
      | some _ => some (true, { count := t.count, entries := t.entries.set i ⟨none, .vbool true⟩ })

/-- The probe loop of table_find_string from table.c: stops at an empty
non-tombstone slot with NULL, skips tombstones, and compares
(length, hash, bytes) on keyed slots. -/
def tfs_loop (entries : List Entry) (cap : Nat) (chars : List Nat) (hash : Nat) :
    Nat → Nat → Option (Option ObjStr)
  | 0, _ => none
  | fuel + 1, index =>
    match (entries.getD index Entry.dfl).key with
    | none =>
      if isNil (entries.getD index Entry.dfl).value then some none
      else tfs_loop entries cap chars hash fuel ((index + 1) % cap)
    | some k =>
      if k.chars.length = chars.length ∧ k.hash = hash ∧ k.chars = chars then some (some k)
      else tfs_loop entries cap chars hash fuel ((index + 1) % cap)

/-- table_find_string from table.c. -/
def table_find_string (t : Table) (chars : List Nat) (hash : Nat) : Option (Option ObjStr) :=
  if t.count = 0 then some none
  else tfs_loop t.entries t.capacity chars hash t.capacity (hash % t.capacity)

/-- table_remove_white from table.c: walk every slot; a keyed entry whose
key object is unmarked is table_del'ed.  The key's mark bit
(`entry->key->object.is_marked`) is supplied as a predicate on the key. -/
def table_remove_white (t : Table) (marked : ObjStr → Bool) : Option Table :=
  (List.range t.capacity).foldlM
    (fun t i =>
      match keyAt t i with
      | some k => if marked k then some t else (table_del t k).map (·.2)
      | none => some t)
    t

/-! ### The interned string pool (object.c)

allocate_string / copy_string / take_string act on vm.strings.  The pool
carries the table plus a fresh-id counter standing for the allocator: a
newly allocated ObjectString is a pointer distinct from every existing
one.  The stack push/pop pair protecting the new string from the GC inside
allocate_string has no effect visible to these claims and the GC cluster
models collection separately. -/

structure StrPool where
  table : Table
  nextId : Nat
deriving DecidableEq

/-- allocate_string from object.c: make the object, insert it into
vm.strings with a nil value. -/
def allocate_string (p : StrPool) (chars : List Nat) (hash : Nat) : Option (ObjStr × StrPool) :=
  let s : ObjStr := ⟨p.nextId, chars, hash⟩
  (table_set p.table s .vnil).map (fun r => (s, ⟨r.2, p.nextId + 1⟩))

/-- copy_string from object.c: hash, look up in the pool, return the
canonical string on a hit, allocate and insert on a miss. -/
def copy_string (p : StrPool) (chars : List Nat) : Option (ObjStr × StrPool) :=
  let h := hash_string chars
  match table_find_string p.table chars h with
  | none => none
  | some (some interned) => some (interned, p)
  | some none => allocate_string p chars h

/-- take_string from object.c: identical lookup; on a hit the caller's
buffer is freed (no model effect), on a miss the buffer is adopted. -/
def take_string (p : StrPool) (chars : List Nat) : Option (ObjStr × StrPool) :=
  let h := hash_string chars
  match table_find_string p.table chars h with
  | none => none
  | some (some interned) => some (interned, p)
  | some none => allocate_string p chars h

/-! ### Representation invariants of the open-addressing table

These are the properties the C code maintains and relies on; they are
stated with bounded quantifiers so that they are decidable on concrete
tables. -/

/-- Probe position number d of a probe sequence starting at hash h. -/
def walk (h cap d : Nat) : Nat := (h + d) % cap

/-- The number of keyed slots. -/
def countKeys (t : Table) : Nat := t.entries.countP (fun e => e.key.isSome)

/-- The number of tombstones. -/
def countTombs (t : Table) : Nat := t.entries.countP (fun e => e.key.isNone && !isNil e.value)

/-- Key k sitting at slot i is reachable by probing from its hash: no
empty non-tombstone slot occurs strictly before it on the probe walk. -/
def keyFindable (t : Table) (k : ObjStr) (i : Nat) : Prop :=
  ∃ d < t.capacity, walk k.hash t.capacity d = i ∧
    ∀ e < d, ¬ (t.entryAt (walk k.hash t.capacity e)).isEmptySlot

instance (t : Table) (k : ObjStr) (i : Nat) : Decidable (keyFindable t k i) := by
  unfold keyFindable; infer_instance

/-- count equals keys plus tombstones. -/
def countOk (t : Table) : Prop := t.count = countKeys t + countTombs t

instance (t : Table) : Decidable (countOk t) := by
  unfold countOk; infer_instance

/-- The 0.75 load-factor ceiling enforced by table_set. -/
def loadOk (t : Table) : Prop := 4 * t.count ≤ 3 * t.capacity

instance (t : Table) : Decidable (loadOk t) := by
  unfold loadOk; infer_instance

/-- Every key in the table is findable from its hash. -/
def findableAll (t : Table) : Prop :=
  ∀ i < t.capacity, ∀ k ∈ (keyAt t i).toList, keyFindable t k i

instance (t : Table) : Decidable (findableAll t) := by
  unfold findableAll; infer_instance

/-- Distinct slots hold distinct key pointers. -/
def uniqOids (t : Table) : Prop :=
  ∀ i < t.capacity, ∀ j < t.capacity, i ≠ j →
    ∀ ki ∈ (keyAt t i).toList, ∀ kj ∈ (keyAt t j).toList, ki.oid ≠ kj.oid

instance (t : Table) : Decidable (uniqOids t) := by
  unfold uniqOids; infer_instance

/-- The invariant bundle of the C table: count counts keys plus
tombstones, the load factor bound holds, every key is findable from its
hash, and distinct slots hold distinct pointers. -/
def TableWF (t : Table) : Prop :=
  countOk t ∧ loadOk t ∧ findableAll t ∧ uniqOids t

instance (t : Table) : Decidable (TableWF t) := by
  unfold TableWF; infer_instance

/-- Key object k occupies some slot of t. -/
def keyPresent (t : Table) (k : ObjStr) : Prop :=
  ∃ i < t.capacity, keyAt t i = some k

instance (t : Table) (k : ObjStr) : Decidable (keyPresent t k) := by
  unfold keyPresent; infer_instance

/-- The binding (k, v) occupies some slot of t. -/
def entryPresent (t : Table) (k : ObjStr) (v : Value) : Prop :=
  ∃ i < t.capacity, t.entryAt i = ⟨some k, v⟩

/-- Some key with pointer identity oid is bound to v in t. -/
def oidPresent (t : Table) (oid : Nat) (v : Value) : Prop :=
  ∃ i < t.capacity, ∃ k0, t.entryAt i = ⟨some k0, v⟩ ∧ k0.oid = oid

/-- No slot of t holds a key with pointer identity oid. -/
def oidAbsent (t : Table) (oid : Nat) : Prop :=
  ∀ i < t.capacity, ∀ k ∈ (keyAt t i).toList, k.oid ≠ oid

instance (t : Table) (oid : Nat) : Decidable (oidAbsent t oid) := by
  unfold oidAbsent; infer_instance

/-- No slot of t holds a key with byte content chars. -/
def contentAbsent (t : Table) (chars : List Nat) : Prop :=
  ∀ i < t.capacity, ∀ k ∈ (keyAt t i).toList, k.chars ≠ chars

/-- Extra invariants of the interned-string pool: stored hashes are the
FNV-1a hash of the content, no two keys share content, and every key's id
is below the allocator counter (so a fresh id is distinct from all of
them). -/
def PoolWF (p : StrPool) : Prop :=
  TableWF p.table ∧
  (∀ i < p.table.capacity, ∀ k ∈ (keyAt p.table i).toList, k.hash = hash_string k.chars) ∧
  (∀ i < p.table.capacity, ∀ j < p.table.capacity, i ≠ j →
    ∀ ki ∈ (keyAt p.table i).toList, ∀ kj ∈ (keyAt p.table j).toList, ki.chars ≠ kj.chars) ∧
  (∀ i < p.table.capacity, ∀ k ∈ (keyAt p.table i).toList, k.oid < p.nextId)

instance (p : StrPool) : Decidable (PoolWF p) := by
  unfold PoolWF; infer_instance

/-- The table with slot p overwritten and the count field set to c'
(the elementary effect of `entry->key = ...; entry->value = ...` plus the
count bookkeeping in table_set / table_del). -/
def writeSlot (t : Table) (p : Nat) (e : Entry) (c' : Nat) : Table :=
  ⟨c', t.entries.set p e⟩

/-- The entry's key pointer-matches `key` (find_entry's `entry->key == key`). -/
def oidMatch (key : ObjStr) (e : Entry) : Prop :=
  ∃ k, e.key = some k ∧ k.oid = key.oid

instance (key : ObjStr) (e : Entry) : Decidable (oidMatch key e) := by
  unfold oidMatch
  rcases e.key with _ | k
  · exact .isFalse (by rintro ⟨k, h, -⟩; cases h)
  · rcases Nat.decEq k.oid key.oid with h | h
    · exact .isFalse (by rintro ⟨k2, hk, ho⟩; cases hk; exact h ho)
    · exact .isTrue ⟨k, rfl, h⟩

/-- The entry's key content-matches `chars` (table_find_string's triple
comparison). -/
def contentMatch (chars : List Nat) (hash : Nat) (e : Entry) : Prop :=
  ∃ k, e.key = some k ∧ k.chars.length = chars.length ∧ k.hash = hash ∧ k.chars = chars

/-! ### The OP_SET_GLOBAL handler (vm.c, run())

Modelled at the level of the globals table and the dispatch result: on a
new key the tentative insert is table_del'ed, a runtime error is raised
and run() returns INTERPRET_RUNTIME_ERROR; otherwise dispatch continues. -/

inductive InterpretResult where
  | intOk
  | intCompileError
  | intRuntimeError
deriving DecidableEq

/-- The OP_SET_GLOBAL case of run()'s dispatch switch (vm.c): table_set,
and if the name was new, remove the tentative binding, raise a runtime
error and return INTERPRET_RUNTIME_ERROR. -/
def op_set_global (globals : Table) (name : ObjStr) (v : Value) :
    Option (InterpretResult × Table) :=
  match table_set globals name v with
  | none => none
  | some (isNew, g') =>
    if isNew then
      match table_del g' name with
      | none => none
      | some (_, g'') => some (.intRuntimeError, g'')
    else some (.intOk, g')

/-! ### The collector's sweep and weak string prune (memory.c)

A heap object is modelled by its post-trace mark bit and the total number
of payload bytes free_object releases through reallocate (the object
struct plus its owned buffers and sub-tables). -/

structure GCObj where
  gid : Nat
  marked : Bool
  size : Nat
deriving DecidableEq

/-- sweep from memory.c: walk the intrusive object list; marked objects
are un-marked and retained, unmarked objects are unlinked and freed (each
free adjusts bytes_allocated down by the payload size via reallocate). -/
def sweep : List GCObj → Nat → (List GCObj × Nat)
  | [], bytes => ([], bytes)
  | o :: rest, bytes =>
    if o.marked then
      let r := sweep rest bytes
      ({ o with marked := false } :: r.1, r.2)
    else
      sweep rest (bytes - o.size)

def totalSize (heap : List GCObj) : Nat := (heap.map (·.size)).sum

/-- The tail of collect_garbage (memory.c) once mark_roots and
trace_references have run: prune the weak interned-string table
(table_remove_white), sweep, then set next_gc to bytes_allocated times
GC_HEAP_GROW_FACTOR (2).  The post-trace mark state of string objects is
supplied as the predicate markedStr (entry->key->object.is_marked). -/
def collect_garbage_tail (heap : List GCObj) (strings : Table)
    (markedStr : ObjStr → Bool) (bytes : Nat) :
    Option (List GCObj × Table × Nat × Nat) :=
  match table_remove_white strings markedStr with
  | none => none
  | some strings' =>
    let r := sweep heap bytes
    some (r.1, strings', r.2, r.2 * 2)

/-! ### The virtual machine: value stack, frames, upvalues (vm.c)

The Value stack[] array is modelled as a function from Int offsets: the C
code forms stack pointers below vm.stack (the stray stack_pop left in
interpret), so offsets must carry sign.  minTop records the least value
stack_top ever took, to make underflow observable.  Heap objects live in
objs, indexed by id; allocation appends.  Open upvalues keep the shape of
the intrusive list sorted by location; when one is closed its storage
moves to closedVals (upvalue->closed). -/

structure CallFrame where
  closure : Nat
  ip : Nat
  slots : Int
deriving DecidableEq

structure OpenUpv where
  uvid : Nat
  loc : Int
deriving DecidableEq

inductive HObj where
  | hfun (arity upvalCount : Nat)
  | hclosure (fnId : Nat) (upvalues : List (Option Nat))
  | hclass (name : ObjStr) (methods : Table)
  | hinstance (klass : Nat) (fields : Table)
  | hbound (reciever : Value) (methodId : Nat)
  | hnative (f : List Value → Value)
  | hstring (s : ObjStr)

structure VMSt where
  mem : Int → Value
  top : Int
  minTop : Int
  frames : List CallFrame
  openUpvalues : List OpenUpv
  closedVals : Nat → Option Value
  nextUv : Nat
  objs : List HObj
  errors : Nat
  initStr : ObjStr

/-- FRAMES_MAX from inc/vm.h. -/
def FRAMES_MAX : Nat := 64

/-- stack_push from vm.c. -/
def stack_push (value : Value) (st : VMSt) : VMSt :=
  { st with mem := fun i => if i = st.top then value else st.mem i, top := st.top + 1 }

/-- stack_pop from vm.c: decrement stack_top, read the slot. -/
def stack_pop (st : VMSt) : Value × VMSt :=
  (st.mem (st.top - 1), { st with top := st.top - 1, minTop := min st.minTop (st.top - 1) })

/-- reset_stack from vm.c. -/
def reset_stack (st : VMSt) : VMSt :=
  { st with openUpvalues := [], top := 0, frames := [] }

/-- runtime_error from vm.c: report to stderr (counted) and reset the
stack. -/
def runtime_error (st : VMSt) : VMSt :=
  { reset_stack st with errors := st.errors + 1 }

/-- peek from vm.c: stack_top[-1 - distance]. -/
def peek (st : VMSt) (distance : Nat) : Value := st.mem (st.top - 1 - distance)

/-- A single store through a stack pointer, vm.stack_top[-arg_count-1] = v. -/
def setMem (st : VMSt) (i : Int) (v : Value) : VMSt :=
  { st with mem := fun j => if j = i then v else st.mem j }

/-- call from vm.c: arity check, frame-overflow check, then a new frame
whose slots base points at the callee slot. -/
def call (st : VMSt) (closureId : Nat) (argCount : Nat) : Option (Bool × VMSt) :=
  match st.objs[closureId]? with
  | some (.hclosure fnId _) =>
    match st.objs[fnId]? with
    | some (.hfun arity _) =>
      if argCount ≠ arity then some (false, runtime_error st)
      else if st.frames.length = FRAMES_MAX then some (false, runtime_error st)
      else some (true, { st with frames := ⟨closureId, 0, st.top - argCount - 1⟩ :: st.frames })
    | _ => none
  | _ => none

/-- call_value from vm.c.  Note the OBJECT_CLASS arm: the instance
replaces the callee slot, then if the class has no init method and
arg_count is nonzero, runtime_error is raised and the function STILL
returns true. -/
def call_value (st : VMSt) (callee : Value) (argCount : Nat) : Option (Bool × VMSt) :=
  match callee with
  | .vobj oid =>
    match st.objs[oid]? with
    | some (.hbound recv methodId) =>
      call (setMem st (st.top - argCount - 1) recv) methodId argCount
    | some (.hclass _ methods) =>
      let instId := st.objs.length
      let st1 := setMem { st with objs := st.objs ++ [.hinstance oid init_table] }
        (st.top - argCount - 1) (.vobj instId)
      match table_get methods st.initStr with
      | none => none
      | some (some (.vobj cid)) => call st1 cid argCount
      | some (some _) => none
      | some none =>
        if argCount ≠ 0 then some (true, runtime_error st1) else some (true, st1)
    | some (.hclosure _ _) => call st oid argCount
    | some (.hnative f) =>
      let args := (List.range argCount).map (fun i => st.mem (st.top - argCount + i))
      some (true, stack_push (f args) { st with top := st.top - argCount - 1 })
    | some _ => some (false, runtime_error st)
    | none => none
  | _ => some (false, runtime_error st)

/-- What one dispatch case of run() does next: unwind with a result, or
continue executing. -/
inductive StepRes where
  | halt (r : InterpretResult) (st : VMSt)
  | cont (st : VMSt)

/-- The OP_CALL case of run()'s dispatch (vm.c): call_value on the callee
peeked at distance arg_count; false unwinds with INTERPRET_RUNTIME_ERROR,
true re-fetches frame = &vm.frames[vm.frame_count - 1] and continues. -/
def op_call (st : VMSt) (argCount : Nat) : Option StepRes :=
  match call_value st (peek st argCount) argCount with
  | none => none
  | some (false, st') => some (.halt .intRuntimeError st')
  | some (true, st') => some (.cont st')

/-- The while walk of capture_upvalue (vm.c) as structural recursion on
the open list: skip entries with location above local; reuse an entry at
local; otherwise link a fresh upvalue (id newId) before the remainder.
Returns (the upvalue id, the new list, whether one was created). -/
def capture_list (lcl : Int) (newId : Nat) : List OpenUpv → Nat × List OpenUpv × Bool
  | [] => (newId, [⟨newId, lcl⟩], true)
  | u :: rest =>
    if lcl < u.loc then
      let r := capture_list lcl newId rest
      (r.1, u :: r.2.1, r.2.2)
    else if u.loc = lcl then (u.uvid, u :: rest, false)
    else (newId, ⟨newId, lcl⟩ :: u :: rest, true)

/-- capture_upvalue from vm.c; new_upvalue is the fresh-id allocation. -/
def capture_upvalue (st : VMSt) (lcl : Int) : Nat × VMSt :=
  let r := capture_list lcl st.nextUv st.openUpvalues
  (r.1,
    { st with
      openUpvalues := r.2.1
      nextUv := if r.2.2 then st.nextUv + 1 else st.nextUv })

/-- The while loop of close_upvalues (vm.c): pop every head upvalue whose
location is at or above last, recording (id, the slot value it closes
over); the rest of the list is untouched. -/
def close_list (mem : Int → Value) (last : Int) :
    List OpenUpv → List OpenUpv × List (Nat × Value)
  | [] => ([], [])
  | u :: rest =>
    if last ≤ u.loc then
      let r := close_list mem last rest
      (r.1, (u.uvid, mem u.loc) :: r.2)
    else (u :: rest, [])

/-- close_upvalues from vm.c: upvalue->closed = *upvalue->location and the
location is redirected to that storage (closedVals). -/
def close_upvalues (st : VMSt) (last : Int) : VMSt :=
  let r := close_list st.mem last st.openUpvalues
  { st with
    openUpvalues := r.1
    closedVals := r.2.foldl (fun m p j => if j = p.1 then some p.2 else m j) st.closedVals }

/-- The OP_RETURN case of run()'s dispatch (vm.c): pop the result, close
upvalues at or above the frame base, drop the frame; for the last frame
pop once more and return INTERPRET_OK; otherwise truncate the stack to
the frame base, push the result and continue in the caller. -/
def op_return (st : VMSt) : Option StepRes :=
  match st.frames with
  | [] => none
  | frame :: rest =>
    let r := stack_pop st
    let st1 := close_upvalues r.2 frame.slots
    match rest with
    | [] => some (.halt .intOk { (stack_pop st1).2 with frames := rest })
    | _ :: _ =>
      some (.cont (stack_push r.1 { st1 with top := frame.slots, frames := rest }))

/-- One iteration of the OP_CLOSURE population loop (vm.c): slot im.1 of
the new closure cid gets either a captured local (is_local, at
frame->slots + index) or a copy from the enclosing closure's array. -/
def closure_capture_step (frame : CallFrame) (cid : Nat) (im : Nat × Bool × Nat)
    (st : VMSt) : Option VMSt :=
  match st.objs[cid]? with
  | some (.hclosure fnId ups) =>
    if im.2.1 then
      let r := capture_upvalue st (frame.slots + im.2.2)
      some { r.2 with objs := r.2.objs.set cid (.hclosure fnId (ups.set im.1 (some r.1))) }
    else
      match st.objs[frame.closure]? with
      | some (.hclosure _ encUps) =>
        some { st with objs := st.objs.set cid (.hclosure fnId (ups.set im.1 (encUps.getD im.2.2 none))) }
      | _ => none
  | _ => none

/-- The population loop of OP_CLOSURE, returning the state after each
store. -/
def closure_steps (frame : CallFrame) (cid : Nat) :
    List (Nat × Bool × Nat) → VMSt → Option (List VMSt)
  | [], _ => some []
  | im :: rest, st =>
    match closure_capture_step frame cid im st with
    | none => none
    | some st' =>
      match closure_steps frame cid rest st' with
      | none => none
      | some tr => some (st' :: tr)

/-- The OP_CLOSURE handler (vm.c) as the trace of states it passes
through: new_closure null-initialises the upvalue array over the function
constant (first state), the closure is pushed onto the value stack
(second state), then the upvalue slots are filled one by one from the
(is_local, index) metadata read from the instruction stream (one state
per store). -/
def op_closure_trace (st : VMSt) (frame : CallFrame) (funConst : Nat)
    (meta : List (Bool × Nat)) : Option (Nat × List VMSt) :=
  match st.objs[funConst]? with
  | some (.hfun _ upvalCount) =>
    let cid := st.objs.length
    let st1 := { st with objs := st.objs ++ [.hclosure funConst (List.replicate upvalCount none)] }
    let st2 := stack_push (.vobj cid) st1
    match closure_steps frame cid
        ((List.range upvalCount).map (fun i => (i, meta.getD i (false, 0)))) st2 with
    | none => none
    | some tr => some (cid, st1 :: st2 :: tr)
  | _ => none

/-- The tail of interpret() after a successful compile (vm.c): the push of
the raw function is commented out in the source but its matching
stack_pop survives; then the top-level closure is pushed and called with
zero arguments (the boolean result of call_value is ignored). -/
def interpret_setup (st : VMSt) (funId : Nat) : Option VMSt :=
  match st.objs[funId]? with
  | some (.hfun _ upvalCount) =>
    let cid := st.objs.length
    let st1 := { st with objs := st.objs ++ [.hclosure funId (List.replicate upvalCount none)] }
    let st2 := stack_push (.vobj cid) (stack_pop st1).2
    match call_value st2 (.vobj cid) 0 with
    | none => none
    | some (_, st') => some st'
  | _ => none

/-- The open-upvalue list invariant: strictly decreasing stack locations
(newest slots first), as maintained by capture_upvalue's sorted insert. -/
def upvSorted (l : List OpenUpv) : Prop := l.Pairwise (fun a b => b.loc < a.loc)

instance (l : List OpenUpv) : Decidable (upvSorted l) := by
  unfold upvSorted; infer_instance

/-- The closure with heap id cid is reachable from the live value stack. -/
def closureStackReachable (cid : Nat) (s : VMSt) : Prop :=
  ∃ i : Int, 0 ≤ i ∧ i < s.top ∧ s.mem i = .vobj cid

/-- Every entry of the closure's upvalue array has been populated. -/
def closureFullyPopulated (cid : Nat) (s : VMSt) : Prop :=
  ∀ fnId ups, s.objs[cid]? = some (HObj.hclosure fnId ups) → ∀ u ∈ ups, u.isSome = true

/-- vm.init_string as a fixture object. -/
def initString : ObjStr := ⟨1000, [105, 110, 105, 116], hash_string [105, 110, 105, 116]⟩

/-- A quiesced VM: empty stack, no frames, no upvalues, empty heap. -/
def emptyVM : VMSt where
  mem := fun _ => .vnil
  top := 0
  minTop := 0
  frames := []
  openUpvalues := []
  closedVals := fun _ => none
  nextUv := 0
  objs := []
  errors := 0
  initStr := initString

/-- The VM right after compile() returned the top-level script function
(heap id 0, arity 0, no upvalues): the state at interpret's commented-out
push. -/
def scriptOnlyVM : VMSt := { emptyVM with objs := [.hfun 0 0] }

/-- A VM about to execute OP_CALL on a class with no init method: stack
holds [class A, 5], one running frame. -/
def classCallVM : VMSt := { emptyVM with
  mem := fun i => if i = 0 then .vobj 0 else if i = 1 then .vnum 5 else .vnil,
  top := 2,
  frames := [⟨2, 0, 0⟩],
  objs := [.hclass ⟨500, [65], hash_string [65]⟩ init_table, .hfun 0 0, .hclosure 1 []] }

/-- A VM about to execute OP_CLOSURE over a function with one captured
local: stack holds [enclosing closure, 3]. -/
def closureCaptureVM : VMSt := { emptyVM with
  mem := fun i => if i = 0 then .vobj 1 else if i = 1 then .vnum 3 else .vnil,
  top := 2,
  frames := [⟨1, 0, 0⟩],
  objs := [.hfun 0 1, .hclosure 0 []] }

/-- A VM with three open upvalues over live stack slots 1, 2, 3. -/
def upvVM : VMSt := { emptyVM with
  mem := fun i =>
    if i = 0 then .vobj 0 else if i = 1 then .vnum 10
    else if i = 2 then .vnum 20 else if i = 3 then .vnum 30 else .vnil,
  top := 4,
  frames := [⟨0, 0, 0⟩],
  openUpvalues := [⟨2, 3⟩, ⟨1, 2⟩, ⟨0, 1⟩],
  nextUv := 3,
  objs := [.hclosure 1 [], .hfun 0 0] }

/-- A VM about to execute OP_RETURN from an inner frame based at slot 1,
with result 42 on top and one open upvalue over slot 2. -/
def returnVM : VMSt := { emptyVM with
  mem := fun i =>
    if i = 0 then .vobj 0 else if i = 1 then .vobj 0
    else if i = 2 then .vnum 1 else if i = 3 then .vnum 42 else .vnil,
  top := 4,
  frames := [⟨0, 5, 1⟩, ⟨0, 0, 0⟩],
  openUpvalues := [⟨0, 2⟩],
  nextUv := 1,
  objs := [.hclosure 1 [], .hfun 0 0] }

/-! ### The Pratt compiler slice around the rules table (compiler.c)

The token and opcode enums live in headers that are not part of src/
(scanner.h, chunk.h), so tokens and opcodes are symbolic inductives with
the spec's names; emitted code is a list of tagged bytes (an opcode or a
raw operand byte), which keeps the numeric encoding abstract but
order-faithful.  The constant pool (make_constant / identifier_constant)
is not modelled: constant operands are emitted as operand byte 0.  Only
the expression layer exercised by the claims is translated; parse
functions of the class/call machinery are left at none (not modelled),
and fuel exhaustion is none as well. -/

inductive TokenType where
  | tLeftParen | tRightParen | tLeftBrace | tRightBrace
  | tComma | tDot | tMinus | tPlus | tSemicolon | tSlash | tStar | tPercent
  | tBang | tBangEqual | tEqual | tEqualEqual
  | tGreater | tGreaterEqual | tLess | tLessEqual
  | tIdentifier | tString | tNumber
  | tAnd | tClass | tElse | tFalse | tFor | tFun | tIf | tNil | tOr
  | tPrint | tReturn | tSuper | tThis | tTrue | tVar | tWhile
  | tError | tEOF
deriving DecidableEq

inductive OpCode where
  | opConstant | opNil | opTrue | opFalse | opPop
  | opGetLocal | opSetLocal | opGetGlobal | opDefineGlobal | opSetGlobal
  | opGetUpvalue | opSetUpvalue | opGetProperty | opSetProperty | opGetSuper
  | opEqual | opGreater | opLess
  | opAdd | opSubtract | opMultiply | opDivide | opModulo
  | opNot | opNegate | opPrint
  | opJump | opJumpIfFalse | opLoop
  | opCall | opInvoke | opSuperInvoke | opClosure | opCloseUpvalue
  | opReturn | opClass | opInherit | opMethod
deriving DecidableEq

/-- A byte of the chunk's code array: an opcode or a raw operand byte. -/
inductive CByte where
  | op (o : OpCode)
  | arg (b : Nat)
deriving DecidableEq

/-- The parse-function pointers appearing in the rules table, as tags. -/
inductive ParseFnTag where
  | pGrouping | pCall | pDot | pUnary | pBinary | pVariable | pString
  | pNumber | pAnd | pOr | pLiteral | pSuper | pThis
deriving DecidableEq

/-- The Precedence enum from compiler.c (PREC_NONE = 0 upward). -/
def PREC_NONE : Nat := 0
def PREC_ASSIGNMENT : Nat := 1
def PREC_OR : Nat := 2
def PREC_AND : Nat := 3
def PREC_EQUALITY : Nat := 4
def PREC_COMPARISON : Nat := 5
def PREC_TERM : Nat := 6
def PREC_FACTOR : Nat := 7
def PREC_UNARY : Nat := 8
def PREC_CALL : Nat := 9
def PREC_PRIMARY : Nat := 10

structure ParseRule where
  prefixFn : Option ParseFnTag
  infixFn : Option ParseFnTag
  precedence : Nat
deriving DecidableEq

/-- The rules[] table from compiler.c, row by row (get_rule). -/
def rules : TokenType → ParseRule
  | .tLeftParen    => ⟨some .pGrouping, some .pCall, PREC_CALL⟩
  | .tRightParen   => ⟨none, none, PREC_NONE⟩
  | .tLeftBrace    => ⟨none, none, PREC_NONE⟩
  | .tRightBrace   => ⟨none, none, PREC_NONE⟩
  | .tComma        => ⟨none, none, PREC_NONE⟩
  | .tDot          => ⟨none, some .pDot, PREC_CALL⟩
  | .tMinus        => ⟨some .pUnary, some .pBinary, PREC_TERM⟩
  | .tPlus         => ⟨none, some .pBinary, PREC_TERM⟩
  | .tSemicolon    => ⟨none, none, PREC_NONE⟩
  | .tSlash        => ⟨none, some .pBinary, PREC_FACTOR⟩
  | .tStar         => ⟨none, some .pBinary, PREC_FACTOR⟩
  | .tPercent      => ⟨none, some .pBinary, PREC_FACTOR⟩
  | .tBang         => ⟨some .pUnary, none, PREC_NONE⟩
  | .tBangEqual    => ⟨none, some .pBinary, PREC_EQUALITY⟩
  | .tEqual        => ⟨none, none, PREC_NONE⟩
  | .tEqualEqual   => ⟨none, some .pBinary, PREC_EQUALITY⟩
  | .tGreater      => ⟨none, some .pBinary, PREC_COMPARISON⟩
  | .tGreaterEqual => ⟨none, some .pBinary, PREC_COMPARISON⟩
  | .tLess         => ⟨none, some .pBinary, PREC_COMPARISON⟩
  | .tLessEqual    => ⟨none, some .pBinary, PREC_COMPARISON⟩
  | .tIdentifier   => ⟨some .pVariable, none, PREC_NONE⟩
  | .tString       => ⟨some .pString, none, PREC_NONE⟩
  | .tNumber       => ⟨some .pNumber, some .pAnd, PREC_AND⟩
  | .tAnd          => ⟨none, none, PREC_NONE⟩
  | .tClass        => ⟨none, none, PREC_NONE⟩
  | .tElse         => ⟨none, none, PREC_NONE⟩
  | .tFalse        => ⟨some .pLiteral, none, PREC_NONE⟩
  | .tFor          => ⟨none, none, PREC_NONE⟩
  | .tFun          => ⟨none, none, PREC_NONE⟩
  | .tIf           => ⟨none, none, PREC_NONE⟩
  | .tNil          => ⟨some .pLiteral, none, PREC_NONE⟩
  | .tOr           => ⟨none, some .pOr, PREC_OR⟩
  | .tPrint        => ⟨none, none, PREC_NONE⟩
  | .tReturn       => ⟨none, none, PREC_NONE⟩
  | .tSuper        => ⟨some .pSuper, none, PREC_NONE⟩
  | .tThis         => ⟨some .pThis, none, PREC_NONE⟩
  | .tTrue         => ⟨some .pLiteral, none, PREC_NONE⟩
  | .tVar          => ⟨none, none, PREC_NONE⟩
  | .tWhile        => ⟨none, none, PREC_NONE⟩
  | .tError        => ⟨none, none, PREC_NONE⟩
  | .tEOF          => ⟨none, none, PREC_NONE⟩

/-- The compiler-side parser state: the remaining token stream (current
is its head), parser.previous, the error flags, and the current chunk's
code array. -/
structure ParserSt where
  tokens : List TokenType
  previous : TokenType
  hadError : Bool
  panicMode : Bool
  code : List CByte
deriving DecidableEq

def current_tok (p : ParserSt) : TokenType := p.tokens.headD .tEOF

/-- advance from compiler.c (the scanner never yields TOKEN_ERROR in the
streams considered, so the error-skipping loop is the plain shift). -/
def advance (p : ParserSt) : ParserSt :=
  { p with previous := current_tok p, tokens := p.tokens.tail }

/-- error_at from compiler.c: suppressed while panicking, otherwise sets
panic_mode and had_error.  The token argument only affects the message
text, so error() and error_at_current() coincide on the state. -/
def raise_error (p : ParserSt) : ParserSt :=
  if p.panicMode then p else { p with hadError := true, panicMode := true }

def consume (t : TokenType) (p : ParserSt) : ParserSt :=
  if current_tok p = t then advance p else raise_error p

def check (t : TokenType) (p : ParserSt) : Bool := current_tok p == t

def emit_byte (b : CByte) (p : ParserSt) : ParserSt := { p with code := p.code ++ [b] }

/-- emit_jump from compiler.c: the opcode plus two 0xff placeholders.
NOTE the source returns count - 1, not count - 2. -/
def emit_jump (o : OpCode) (p : ParserSt) : Nat × ParserSt :=
  let p := emit_byte (.arg 255) (emit_byte (.arg 255) (emit_byte (.op o) p))
  (p.code.length - 1, p)

/-- patch_jump from compiler.c. -/
def patch_jump (offset : Nat) (p : ParserSt) : ParserSt :=
  let jump := p.code.length - offset - 2
  let p := if 65535 < jump then raise_error p else p
  { p with
    code := ((p.code.set offset (.arg (jump / 256 % 256))).set
      (offset + 1) (.arg (jump % 256))) }

mutual

/-- Dispatch of prefix_rule(can_assign) in parse_precedence: the prefix
parse functions of compiler.c.  number/string emit OP_CONSTANT with the
(unmodelled) constant index; class/call machinery is out of this slice. -/
def run_pre_rule : Nat → ParseFnTag → Bool → ParserSt → Option ParserSt
  | 0, _, _, _ => none
  | fuel + 1, tag, canAssign, p =>
    match tag with
    | .pNumber => some (emit_byte (.arg 0) (emit_byte (.op .opConstant) p))
    | .pString => some (emit_byte (.arg 0) (emit_byte (.op .opConstant) p))
    | .pLiteral =>
      match p.previous with
      | .tFalse => some (emit_byte (.op .opFalse) p)
      | .tTrue => some (emit_byte (.op .opTrue) p)
      | .tNil => some (emit_byte (.op .opNil) p)
      | _ => none
    | .pVariable => named_variable fuel canAssign p
    | .pGrouping =>
      match parse_precedence fuel PREC_ASSIGNMENT p with
      | none => none
      | some p => some (consume .tRightParen p)
    | .pUnary =>
      match p.previous with
      | .tMinus =>
        match parse_precedence fuel PREC_UNARY p with
        | none => none
        | some p2 => some (emit_byte (.op .opNegate) p2)
      | .tBang =>
        match parse_precedence fuel PREC_UNARY p with
        | none => none
        | some p2 => some (emit_byte (.op .opNot) p2)
      | _ => none
    | _ => none

/-- variable/named_variable from compiler.c at top level: no local and no
upvalue resolves, so the global path with the identifier constant. -/
def named_variable : Nat → Bool → ParserSt → Option ParserSt
  | 0, _, _ => none
  | fuel + 1, canAssign, p =>
    if canAssign && check .tEqual p then
      match parse_precedence fuel PREC_ASSIGNMENT (advance p) with
      | none => none
      | some p => some (emit_byte (.arg 0) (emit_byte (.op .opSetGlobal) p))
    else
      some (emit_byte (.arg 0) (emit_byte (.op .opGetGlobal) p))

/-- Dispatch of infix_rule(can_assign): binary, and_, or_ from
compiler.c; call/dot are out of this slice. -/
def run_in_rule : Nat → ParseFnTag → Bool → ParserSt → Option ParserSt
  | 0, _, _, _ => none
  | fuel + 1, tag, _, p =>
    match tag with
    | .pBinary => binary fuel p
    | .pAnd =>
      let r := emit_jump .opJumpIfFalse p
      match parse_precedence fuel PREC_AND (emit_byte (.op .opPop) r.2) with
      | none => none
      | some p => some (patch_jump r.1 p)
    | .pOr =>
      let relse := emit_jump .opJumpIfFalse p
      let rend := emit_jump .opJump relse.2
      match parse_precedence fuel PREC_OR (emit_byte (.op .opPop) (patch_jump relse.1 rend.2)) with
      | none => none
      | some p => some (patch_jump rend.1 p)
    | _ => none

/-- binary from compiler.c: right operand at one precedence higher, then
the operator instruction(s). -/
def binary : Nat → ParserSt → Option ParserSt
  | 0, _ => none
  | fuel + 1, p =>
    match parse_precedence fuel ((rules p.previous).precedence + 1) p with
    | none => none
    | some p2 =>
      match p.previous with
      | .tPlus => some (emit_byte (.op .opAdd) p2)
      | .tMinus => some (emit_byte (.op .opSubtract) p2)
      | .tStar => some (emit_byte (.op .opMultiply) p2)
      | .tSlash => some (emit_byte (.op .opDivide) p2)
      | .tPercent => some (emit_byte (.op .opModulo) p2)
      | .tBangEqual => some (emit_byte (.op .opNot) (emit_byte (.op .opEqual) p2))
      | .tEqualEqual => some (emit_byte (.op .opEqual) p2)
      | .tGreater => some (emit_byte (.op .opGreater) p2)
      | .tGreaterEqual => some (emit_byte (.op .opNot) (emit_byte (.op .opLess) p2))
      | .tLess => some (emit_byte (.op .opLess) p2)
      | .tLessEqual => some (emit_byte (.op .opNot) (emit_byte (.op .opGreater) p2))
      | _ => none

/-- parse_precedence from compiler.c. -/
def parse_precedence : Nat → Nat → ParserSt → Option ParserSt
  | 0, _, _ => none
  | fuel + 1, prec, p =>
    let p := advance p
    match (rules p.previous).prefixFn with
    | none => some (raise_error p)
    | some tag =>
      let canAssign := decide (prec ≤ PREC_ASSIGNMENT)
      match run_pre_rule fuel tag canAssign p with
      | none => none
      | some p =>
        match pp_loop fuel prec canAssign p with
        | none => none
        | some p =>
          if canAssign && check .tEqual p then some (raise_error (advance p))
          else some p

/-- The while loop of parse_precedence: enter while the CURRENT token's
rule precedence is at least the requested one; the infix pointer is
called unchecked in the source, so a row with a precedence but no infix
function would be a wild call (none). -/
def pp_loop : Nat → Nat → Bool → ParserSt → Option ParserSt
  | 0, _, _, _ => none
  | fuel + 1, prec, canAssign, p =>
    if prec ≤ (rules (current_tok p)).precedence then
      let p := advance p
      match (rules p.previous).infixFn with
      | none => none
      | some tag =>
        match run_in_rule fuel tag canAssign p with
        | none => none
        | some p => pp_loop fuel prec canAssign p
    else some p

end

/-- expression_statement from compiler.c (expression is
parse_precedence(PREC_ASSIGNMENT)). -/
def expression_statement (fuel : Nat) (p : ParserSt) : Option ParserSt :=
  match parse_precedence fuel PREC_ASSIGNMENT p with
  | none => none
  | some p => some (emit_byte (.op .opPop) (consume .tSemicolon p))

/-- The parser state at the start of statement dispatch for the source
text a and b; -- current = first token, nothing emitted yet. -/
def andProgStart : ParserSt :=
  ⟨[.tIdentifier, .tAnd, .tIdentifier, .tSemicolon, .tEOF], .tEOF, false, false, []⟩


/-! ## Theorems -/

/-! ### Basic facts about values, list access and modular probing -/

theorem isNil_true_iff {v : Value} : isNil v = true ↔ v = .vnil := by
  cases v <;> simp [isNil]

theorem isNil_false_iff {v : Value} : isNil v = false ↔ v ≠ .vnil := by
  cases v <;> simp [isNil]

theorem getD_set_self {l : List Entry} {i : Nat} {a : Entry} (h : i < l.length) :
    (l.set i a).getD i Entry.dfl = a := by
  simp [List.getD_eq_getElem?_getD, List.getElem?_set, h]

theorem getD_set_ne {l : List Entry} {i j : Nat} (a : Entry) (h : i ≠ j) :
    (l.set i a).getD j Entry.dfl = l.getD j Entry.dfl := by
  simp [List.getD_eq_getElem?_getD, List.getElem?_set, h]

theorem walk_shift {cap : Nat} (idx e : Nat) :
    ((idx + 1) % cap + e) % cap = (idx + (e + 1)) % cap := by
  rw [Nat.mod_add_mod]
  congr 1
  omega

theorem walk_ne {cap : Nat} (hc : 0 < cap) {e d : Nat} (he : e < d) (hd : d < cap) (idx : Nat) :
    (idx + e) % cap ≠ (idx + d) % cap := by
  intro hEq
  set r := (idx + e) % cap with hr
  have hrlt : r < cap := Nat.mod_lt _ hc
  have ht : idx + d = (idx + e) + (d - e) := by omega
  have htlt : d - e < cap := by omega
  have htpos : 0 < d - e := by omega
  rw [ht, Nat.add_mod, ← hr, Nat.mod_eq_of_lt htlt] at hEq
  rcases Nat.lt_or_ge (r + (d - e)) cap with h | h
  · rw [Nat.mod_eq_of_lt h] at hEq
    omega
  · rw [Nat.mod_eq_sub_mod h, Nat.mod_eq_of_lt (by omega)] at hEq
    omega

theorem walk_cover {cap : Nat} (hc : 0 < cap) (idx : Nat) {i : Nat} (hi : i < cap) :
    ∃ d < cap, (idx + d) % cap = i := by
  refine ⟨(cap + i - idx % cap) % cap, Nat.mod_lt _ hc, ?_⟩
  have hr : idx % cap < cap := Nat.mod_lt _ hc
  rw [Nat.add_mod_mod, ← Nat.mod_add_mod]
  have hsum : idx % cap + (cap + i - idx % cap) = cap + i := by omega
  rw [hsum, Nat.add_mod_left, Nat.mod_eq_of_lt hi]

/-! ### Probe-loop lemmas for find_entry -/

theorem fel_step_hit {entries : List Entry} {cap : Nat} {key : ObjStr} {fuel idx : Nat}
    {tomb : Option Nat} {k : ObjStr} (hk : (entries.getD idx Entry.dfl).key = some k)
    (ho : k.oid = key.oid) :
    find_entry_loop entries cap key (fuel + 1) idx tomb = some idx := by
  rw [find_entry_loop]
  simp only [hk]
  rw [if_pos ho]

theorem fel_step_keyed {entries : List Entry} {cap : Nat} {key : ObjStr} {fuel idx : Nat}
    {tomb : Option Nat} {k : ObjStr} (hk : (entries.getD idx Entry.dfl).key = some k)
    (ho : ¬ k.oid = key.oid) :
    find_entry_loop entries cap key (fuel + 1) idx tomb =
      find_entry_loop entries cap key fuel ((idx + 1) % cap) tomb := by
  rw [find_entry_loop]
  simp only [hk]
  rw [if_neg ho]

theorem fel_step_empty {entries : List Entry} {cap : Nat} {key : ObjStr} {fuel idx : Nat}
    {tomb : Option Nat} (hk : (entries.getD idx Entry.dfl).key = none)
    (hv : (entries.getD idx Entry.dfl).value = .vnil) :
    find_entry_loop entries cap key (fuel + 1) idx tomb = some (tomb.getD idx) := by
  rw [find_entry_loop]
  simp only [hk]
  rw [if_pos (isNil_true_iff.mpr hv)]

theorem fel_step_tomb {entries : List Entry} {cap : Nat} {key : ObjStr} {fuel idx : Nat}
    {tomb : Option Nat} (hk : (entries.getD idx Entry.dfl).key = none)
    (hv : ¬ (entries.getD idx Entry.dfl).value = .vnil) :
    find_entry_loop entries cap key (fuel + 1) idx tomb =
      find_entry_loop entries cap key fuel ((idx + 1) % cap) (some (tomb.getD idx)) := by
  rw [find_entry_loop]
  simp only [hk]
  rw [if_neg (fun h => hv (isNil_true_iff.mp h))]

theorem find_entry_loop_found (entries : List Entry) (cap : Nat) (key : ObjStr) {d : Nat} :
    ∀ fuel idx tomb, d < fuel → idx < cap →
      oidMatch key (entries.getD ((idx + d) % cap) Entry.dfl) →
      (∀ e < d, ¬ (entries.getD ((idx + e) % cap) Entry.dfl).isEmptySlot ∧
        ¬ oidMatch key (entries.getD ((idx + e) % cap) Entry.dfl)) →
      find_entry_loop entries cap key fuel idx tomb = some ((idx + d) % cap) := by
  induction d with
  | zero =>
    intro fuel idx tomb hf hidx hm hpre
    obtain ⟨f, rfl⟩ : ∃ f, fuel = f + 1 := ⟨fuel - 1, by omega⟩
    have hidx0 : (idx + 0) % cap = idx := by rw [Nat.add_zero, Nat.mod_eq_of_lt hidx]
    rw [hidx0] at hm ⊢
    obtain ⟨k, hk, ho⟩ := hm
    exact fel_step_hit hk ho
  | succ d ih =>
    intro fuel idx tomb hf hidx hm hpre
    obtain ⟨f, rfl⟩ : ∃ f, fuel = f + 1 := ⟨fuel - 1, by omega⟩
    have hidx0 : (idx + 0) % cap = idx := by rw [Nat.add_zero, Nat.mod_eq_of_lt hidx]
    have h0 := hpre 0 (Nat.succ_pos d)
    rw [hidx0] at h0
    have hstep : ∀ tomb2, find_entry_loop entries cap key f ((idx + 1) % cap) tomb2 =
        some ((idx + (d + 1)) % cap) := by
      intro tomb2
      have hm2 : oidMatch key
          (entries.getD (((idx + 1) % cap + d) % cap) Entry.dfl) := by
        rw [walk_shift]; exact hm
      have hpre2 : ∀ e < d,
          ¬ (entries.getD (((idx + 1) % cap + e) % cap) Entry.dfl).isEmptySlot ∧
          ¬ oidMatch key (entries.getD (((idx + 1) % cap + e) % cap) Entry.dfl) := by
        intro e he
        rw [walk_shift]
        exact hpre (e + 1) (by omega)
      have := ih f ((idx + 1) % cap) tomb2 (by omega)
        (Nat.mod_lt _ (Nat.lt_of_le_of_lt (Nat.zero_le _) hidx)) hm2 hpre2
      rw [walk_shift] at this
      exact this
    rcases hk : (entries.getD idx Entry.dfl).key with _ | k
    · have hnn : ¬ (entries.getD idx Entry.dfl).value = .vnil := by
        intro hv
        exact h0.1 ⟨hk, hv⟩
      rw [fel_step_tomb hk hnn]
      exact hstep _
    · have hno : ¬ k.oid = key.oid := fun h => h0.2 ⟨k, hk, h⟩
      rw [fel_step_keyed hk hno]
      exact hstep _

theorem find_entry_loop_tomb (entries : List Entry) (cap : Nat) (key : ObjStr) {d : Nat} :
    ∀ fuel idx j, d < fuel → idx < cap →
      (entries.getD ((idx + d) % cap) Entry.dfl).isEmptySlot →
      (∀ e ≤ d, ¬ oidMatch key (entries.getD ((idx + e) % cap) Entry.dfl)) →
      find_entry_loop entries cap key fuel idx (some j) = some j := by
  induction d with
  | zero =>
    intro fuel idx j hf hidx hm hpre
    obtain ⟨f, rfl⟩ : ∃ f, fuel = f + 1 := ⟨fuel - 1, by omega⟩
    have hidx0 : (idx + 0) % cap = idx := by rw [Nat.add_zero, Nat.mod_eq_of_lt hidx]
    rw [hidx0] at hm
    rw [fel_step_empty hm.1 hm.2]
    rfl
  | succ d ih =>
    intro fuel idx j hf hidx hm hpre
    obtain ⟨f, rfl⟩ : ∃ f, fuel = f + 1 := ⟨fuel - 1, by omega⟩
    have hidx0 : (idx + 0) % cap = idx := by rw [Nat.add_zero, Nat.mod_eq_of_lt hidx]
    have h0 := hpre 0 (Nat.zero_le _)
    rw [hidx0] at h0
    have hm2 : (entries.getD (((idx + 1) % cap + d) % cap) Entry.dfl).isEmptySlot := by
      rw [walk_shift]; exact hm
    have hpre2 : ∀ e ≤ d,
        ¬ oidMatch key (entries.getD (((idx + 1) % cap + e) % cap) Entry.dfl) := by
      intro e he
      rw [walk_shift]
      exact hpre (e + 1) (by omega)
    have hrec := ih f ((idx + 1) % cap) j (by omega)
      (Nat.mod_lt _ (Nat.lt_of_le_of_lt (Nat.zero_le _) hidx)) hm2 hpre2
    rcases hk : (entries.getD idx Entry.dfl).key with _ | k
    · by_cases hv : (entries.getD idx Entry.dfl).value = .vnil
      · rw [fel_step_empty hk hv]
        rfl
      · rw [fel_step_tomb hk hv]
        exact hrec
    · have hno : ¬ k.oid = key.oid := fun h => h0 ⟨k, hk, h⟩
      rw [fel_step_keyed hk hno]
      exact hrec

theorem find_entry_loop_absent (entries : List Entry) (cap : Nat) (key : ObjStr) {d : Nat} :
    ∀ fuel idx, d < fuel → idx < cap →
      (entries.getD ((idx + d) % cap) Entry.dfl).isEmptySlot →
      (∀ e < d, ¬ (entries.getD ((idx + e) % cap) Entry.dfl).isEmptySlot) →
      (∀ e ≤ d, ¬ oidMatch key (entries.getD ((idx + e) % cap) Entry.dfl)) →
      ∃ dp ≤ d, find_entry_loop entries cap key fuel idx none = some ((idx + dp) % cap) ∧
        (entries.getD ((idx + dp) % cap) Entry.dfl).key = none ∧
        ∀ e < dp, (entries.getD ((idx + e) % cap) Entry.dfl).key.isSome := by
  induction d with
  | zero =>
    intro fuel idx hf hidx hm hne hpre
    obtain ⟨f, rfl⟩ : ∃ f, fuel = f + 1 := ⟨fuel - 1, by omega⟩
    have hidx0 : (idx + 0) % cap = idx := by rw [Nat.add_zero, Nat.mod_eq_of_lt hidx]
    rw [hidx0] at hm
    refine ⟨0, Nat.le_refl 0, ?_, ?_, by omega⟩
    · rw [hidx0, fel_step_empty hm.1 hm.2]
      rfl
    · rw [hidx0]
      exact hm.1
  | succ d ih =>
    intro fuel idx hf hidx hm hne hpre
    obtain ⟨f, rfl⟩ : ∃ f, fuel = f + 1 := ⟨fuel - 1, by omega⟩
    have hidx0 : (idx + 0) % cap = idx := by rw [Nat.add_zero, Nat.mod_eq_of_lt hidx]
    have h0 := hne 0 (Nat.succ_pos d)
    rw [hidx0] at h0
    have hm2 : (entries.getD (((idx + 1) % cap + d) % cap) Entry.dfl).isEmptySlot := by
      rw [walk_shift]; exact hm
    have hpre2 : ∀ e ≤ d,
        ¬ oidMatch key (entries.getD (((idx + 1) % cap + e) % cap) Entry.dfl) := by
      intro e he
      rw [walk_shift]
      exact hpre (e + 1) (by omega)
    rcases hk : (entries.getD idx Entry.dfl).key with _ | k
    · -- a tombstone right here: it is remembered and returned at the empty slot
      have hnn : ¬ (entries.getD idx Entry.dfl).value = .vnil := by
        intro hv
        exact h0 ⟨hk, hv⟩
      refine ⟨0, Nat.zero_le _, ?_, ?_, by omega⟩
      · rw [hidx0, fel_step_tomb hk hnn]
        have := find_entry_loop_tomb entries cap key f ((idx + 1) % cap) idx (by omega)
          (Nat.mod_lt _ (Nat.lt_of_le_of_lt (Nat.zero_le _) hidx)) hm2 hpre2
        simpa using this
      · rw [hidx0]
        exact hk
    · have hno : ¬ k.oid = key.oid := fun h => hpre 0 (Nat.zero_le _) ⟨k, by rw [hidx0]; exact hk, h⟩
      have hne2 : ∀ e < d,
          ¬ (entries.getD (((idx + 1) % cap + e) % cap) Entry.dfl).isEmptySlot := by
        intro e he
        rw [walk_shift]
        exact hne (e + 1) (by omega)
      obtain ⟨dp, hdp, hres, hkey, hpref⟩ := ih f ((idx + 1) % cap) (by omega)
        (Nat.mod_lt _ (Nat.lt_of_le_of_lt (Nat.zero_le _) hidx)) hm2 hne2 hpre2
      refine ⟨dp + 1, by omega, ?_, ?_, ?_⟩
      · rw [fel_step_keyed hk hno, ← @walk_shift cap idx dp]
        exact hres
      · rw [← @walk_shift cap idx dp]
        exact hkey
      · intro e he
        rcases Nat.eq_zero_or_pos e with rfl | hpos
        · rw [hidx0, hk]
          rfl
        · obtain ⟨e2, rfl⟩ : ∃ e2, e = e2 + 1 := ⟨e - 1, by omega⟩
          have := hpref e2 (by omega)
          rw [walk_shift] at this
          exact this

/-! ### Probe-loop lemmas for table_find_string -/

theorem tfs_step_hit {entries : List Entry} {cap : Nat} {chars : List Nat} {hash : Nat}
    {fuel idx : Nat} {k : ObjStr} (hk : (entries.getD idx Entry.dfl).key = some k)
    (hm : k.chars.length = chars.length ∧ k.hash = hash ∧ k.chars = chars) :
    tfs_loop entries cap chars hash (fuel + 1) idx = some (some k) := by
  rw [tfs_loop]
  simp only [hk]
  rw [if_pos hm]

theorem tfs_step_keyed {entries : List Entry} {cap : Nat} {chars : List Nat} {hash : Nat}
    {fuel idx : Nat} {k : ObjStr} (hk : (entries.getD idx Entry.dfl).key = some k)
    (hm : ¬ (k.chars.length = chars.length ∧ k.hash = hash ∧ k.chars = chars)) :
    tfs_loop entries cap chars hash (fuel + 1) idx =
      tfs_loop entries cap chars hash fuel ((idx + 1) % cap) := by
  rw [tfs_loop]
  simp only [hk]
  rw [if_neg hm]

theorem tfs_step_empty {entries : List Entry} {cap : Nat} {chars : List Nat} {hash : Nat}
    {fuel idx : Nat} (hk : (entries.getD idx Entry.dfl).key = none)
    (hv : (entries.getD idx Entry.dfl).value = .vnil) :
    tfs_loop entries cap chars hash (fuel + 1) idx = some none := by
  rw [tfs_loop]
  simp only [hk]
  rw [if_pos (isNil_true_iff.mpr hv)]

theorem tfs_step_tomb {entries : List Entry} {cap : Nat} {chars : List Nat} {hash : Nat}
    {fuel idx : Nat} (hk : (entries.getD idx Entry.dfl).key = none)
    (hv : ¬ (entries.getD idx Entry.dfl).value = .vnil) :
    tfs_loop entries cap chars hash (fuel + 1) idx =
      tfs_loop entries cap chars hash fuel ((idx + 1) % cap) := by
  rw [tfs_loop]
  simp only [hk]
  rw [if_neg (fun h => hv (isNil_true_iff.mp h))]

theorem tfs_loop_found (entries : List Entry) (cap : Nat) (chars : List Nat) (hash : Nat)
    {d : Nat} :
    ∀ fuel idx, d < fuel → idx < cap →
      ∀ kd, (entries.getD ((idx + d) % cap) Entry.dfl).key = some kd →
      (kd.chars.length = chars.length ∧ kd.hash = hash ∧ kd.chars = chars) →
      (∀ e < d, ¬ (entries.getD ((idx + e) % cap) Entry.dfl).isEmptySlot ∧
        ¬ contentMatch chars hash (entries.getD ((idx + e) % cap) Entry.dfl)) →
      tfs_loop entries cap chars hash fuel idx = some (some kd) := by
  induction d with
  | zero =>
    intro fuel idx hf hidx kd hk hm hpre
    obtain ⟨f, rfl⟩ : ∃ f, fuel = f + 1 := ⟨fuel - 1, by omega⟩
    have hidx0 : (idx + 0) % cap = idx := by rw [Nat.add_zero, Nat.mod_eq_of_lt hidx]
    rw [hidx0] at hk
    exact tfs_step_hit hk hm
  | succ d ih =>
    intro fuel idx hf hidx kd hk hm hpre
    obtain ⟨f, rfl⟩ : ∃ f, fuel = f + 1 := ⟨fuel - 1, by omega⟩
    have hidx0 : (idx + 0) % cap = idx := by rw [Nat.add_zero, Nat.mod_eq_of_lt hidx]
    have h0 := hpre 0 (Nat.succ_pos d)
    rw [hidx0] at h0
    have hrec : tfs_loop entries cap chars hash f ((idx + 1) % cap) = some (some kd) := by
      refine ih f ((idx + 1) % cap) (by omega)
        (Nat.mod_lt _ (Nat.lt_of_le_of_lt (Nat.zero_le _) hidx)) kd ?_ hm ?_
      · rw [walk_shift]; exact hk
      · intro e he
        rw [walk_shift]
        exact hpre (e + 1) (by omega)
    rcases hk0 : (entries.getD idx Entry.dfl).key with _ | k
    · have hnn : ¬ (entries.getD idx Entry.dfl).value = .vnil := by
        intro hv
        exact h0.1 ⟨hk0, hv⟩
      rw [tfs_step_tomb hk0 hnn]
      exact hrec
    · have hno : ¬ (k.chars.length = chars.length ∧ k.hash = hash ∧ k.chars = chars) :=
        fun h => h0.2 ⟨k, hk0, h⟩
      rw [tfs_step_keyed hk0 hno]
      exact hrec

theorem tfs_loop_absent (entries : List Entry) (cap : Nat) (chars : List Nat) (hash : Nat)
    {d : Nat} :
    ∀ fuel idx, d < fuel → idx < cap →
      (entries.getD ((idx + d) % cap) Entry.dfl).isEmptySlot →
      (∀ j < cap, ¬ contentMatch chars hash (entries.getD j Entry.dfl)) →
      tfs_loop entries cap chars hash fuel idx = some none := by
  induction d with
  | zero =>
    intro fuel idx hf hidx hm hno
    obtain ⟨f, rfl⟩ : ∃ f, fuel = f + 1 := ⟨fuel - 1, by omega⟩
    have hidx0 : (idx + 0) % cap = idx := by rw [Nat.add_zero, Nat.mod_eq_of_lt hidx]
    rw [hidx0] at hm
    exact tfs_step_empty hm.1 hm.2
  | succ d ih =>
    intro fuel idx hf hidx hm hno
    obtain ⟨f, rfl⟩ : ∃ f, fuel = f + 1 := ⟨fuel - 1, by omega⟩
    have hm2 : (entries.getD (((idx + 1) % cap + d) % cap) Entry.dfl).isEmptySlot := by
      rw [walk_shift]; exact hm
    have hrec := ih f ((idx + 1) % cap) (by omega)
      (Nat.mod_lt _ (Nat.lt_of_le_of_lt (Nat.zero_le _) hidx)) hm2 hno
    rcases hk0 : (entries.getD idx Entry.dfl).key with _ | k
    · by_cases hv : (entries.getD idx Entry.dfl).value = .vnil
      · exact tfs_step_empty hk0 hv
      · rw [tfs_step_tomb hk0 hv]
        exact hrec
    · have hno0 : ¬ (k.chars.length = chars.length ∧ k.hash = hash ∧ k.chars = chars) :=
        fun h => hno idx hidx ⟨k, hk0, h⟩
      rw [tfs_step_keyed hk0 hno0]
      exact hrec

theorem tfs_loop_total (entries : List Entry) (cap : Nat) (chars : List Nat) (hash : Nat)
    {d : Nat} :
    ∀ fuel idx, d < fuel → idx < cap →
      (entries.getD ((idx + d) % cap) Entry.dfl).isEmptySlot →
      ∃ r, tfs_loop entries cap chars hash fuel idx = some r := by
  induction d with
  | zero =>
    intro fuel idx hf hidx hm
    obtain ⟨f, rfl⟩ : ∃ f, fuel = f + 1 := ⟨fuel - 1, by omega⟩
    have hidx0 : (idx + 0) % cap = idx := by rw [Nat.add_zero, Nat.mod_eq_of_lt hidx]
    rw [hidx0] at hm
    exact ⟨none, tfs_step_empty hm.1 hm.2⟩
  | succ d ih =>
    intro fuel idx hf hidx hm
    obtain ⟨f, rfl⟩ : ∃ f, fuel = f + 1 := ⟨fuel - 1, by omega⟩
    have hm2 : (entries.getD (((idx + 1) % cap + d) % cap) Entry.dfl).isEmptySlot := by
      rw [walk_shift]; exact hm
    have hrec := ih f ((idx + 1) % cap) (by omega)
      (Nat.mod_lt _ (Nat.lt_of_le_of_lt (Nat.zero_le _) hidx)) hm2
    rcases hk0 : (entries.getD idx Entry.dfl).key with _ | k
    · by_cases hv : (entries.getD idx Entry.dfl).value = .vnil
      · exact ⟨none, tfs_step_empty hk0 hv⟩
      · rw [tfs_step_tomb hk0 hv]
        exact hrec
    · by_cases hmm : k.chars.length = chars.length ∧ k.hash = hash ∧ k.chars = chars
      · exact ⟨some k, tfs_step_hit hk0 hmm⟩
      · rw [tfs_step_keyed hk0 hmm]
        exact hrec

theorem tfs_loop_hit_shape (entries : List Entry) (cap : Nat) (chars : List Nat) (hash : Nat)
    {fuel : Nat} :
    ∀ idx k, idx < cap → tfs_loop entries cap chars hash fuel idx = some (some k) →
      k.chars = chars ∧ k.hash = hash ∧ ∃ i < cap, (entries.getD i Entry.dfl).key = some k := by
  induction fuel with
  | zero =>
    intro idx k hidx h
    simp [tfs_loop] at h
  | succ fuel ih =>
    intro idx k hidx h
    rcases hk0 : (entries.getD idx Entry.dfl).key with _ | k0
    · by_cases hv : (entries.getD idx Entry.dfl).value = .vnil
      · rw [tfs_step_empty hk0 hv] at h
        cases h
      · rw [tfs_step_tomb hk0 hv] at h
        exact ih _ _ (Nat.mod_lt _ (Nat.lt_of_le_of_lt (Nat.zero_le _) hidx)) h
    · by_cases hmm : k0.chars.length = chars.length ∧ k0.hash = hash ∧ k0.chars = chars
      · rw [tfs_step_hit hk0 hmm] at h
        obtain rfl : k0 = k := by cases h; rfl
        exact ⟨hmm.2.2, hmm.2.1, idx, hidx, hk0⟩
      · rw [tfs_step_keyed hk0 hmm] at h
        exact ih _ _ (Nat.mod_lt _ (Nat.lt_of_le_of_lt (Nat.zero_le _) hidx)) h

/-! ### Counting and slot classification -/

theorem mem_keyAt_toList {t : Table} {i : Nat} {k : ObjStr} :
    k ∈ (keyAt t i).toList ↔ keyAt t i = some k := by
  cases h : keyAt t i <;> simp
  exact eq_comm

theorem entryAt_lt {t : Table} {i : Nat} (hi : i < t.entries.length) :
    t.entryAt i = t.entries[i] := by
  unfold Table.entryAt
  rw [List.getD_eq_getElem?_getD, List.getElem?_eq_getElem hi]
  rfl

theorem exists_empty_entry :
    ∀ l : List Entry,
      l.countP (fun e => e.key.isSome) + l.countP (fun e => e.key.isNone && !isNil e.value) <
        l.length →
      ∃ e ∈ l, e.isEmptySlot := by
  intro l
  induction l with
  | nil => intro h; simp at h
  | cons e0 rest ih =>
    intro h
    rw [List.countP_cons, List.countP_cons, List.length_cons] at h
    rcases hk : e0.key with _ | k
    · by_cases hv : e0.value = .vnil
      · exact ⟨e0, List.mem_cons_self .., ⟨hk, hv⟩⟩
      · have h1 : e0.key.isSome = false := by simp [hk]
        have h2 : (e0.key.isNone && !isNil e0.value) = true := by
          simp [hk, isNil_false_iff.mpr hv]
        rw [h1, h2] at h
        simp at h
        obtain ⟨e, he, hemp⟩ := ih (by omega)
        exact ⟨e, List.mem_cons_of_mem _ he, hemp⟩
    · have h1 : e0.key.isSome = true := by simp [hk]
      have h2 : (e0.key.isNone && !isNil e0.value) = false := by
        simp [hk]
      rw [h1, h2] at h
      simp at h
      obtain ⟨e, he, hemp⟩ := ih (by omega)
      exact ⟨e, List.mem_cons_of_mem _ he, hemp⟩

theorem exists_empty_slot (t : Table) (hcnt : t.count = countKeys t + countTombs t)
    (hlt : t.count < t.capacity) :
    ∃ i < t.capacity, (t.entryAt i).isEmptySlot := by
  obtain ⟨e, he, hemp⟩ := exists_empty_entry t.entries (by
    unfold countKeys countTombs at hcnt
    unfold Table.capacity at hlt
    omega)
  obtain ⟨i, hi, rfl⟩ := List.mem_iff_getElem.mp he
  exact ⟨i, hi, by rw [entryAt_lt hi]; exact hemp⟩

theorem count_pos_of_key {t : Table} (hcnt : t.count = countKeys t + countTombs t)
    {i : Nat} (hi : i < t.capacity) {k : ObjStr} (hk : keyAt t i = some k) :
    0 < t.count := by
  have hi' : i < t.entries.length := hi
  have hmem : t.entries[i] ∈ t.entries := List.getElem_mem hi'
  have hsome : (fun (e : Entry) => e.key.isSome) (t.entries[i]) = true := by
    unfold keyAt at hk
    rw [entryAt_lt hi] at hk
    simp [hk]
  have : 0 < countKeys t := List.countP_pos_iff.mpr ⟨_, hmem, hsome⟩
  omega

/-! ### From the invariants to find_entry results -/

theorem not_oidMatch_of_absent {t : Table} {key : ObjStr} (habs : oidAbsent t key.oid)
    {j : Nat} (hj : j < t.capacity) : ¬ oidMatch key (t.entries.getD j Entry.dfl) := by
  rintro ⟨k, hk, ho⟩
  exact habs j hj k (mem_keyAt_toList.mpr hk) ho

/-- A key sitting in the table at slot i is found at slot i by probing
with the key itself: probing starts at the stored hash, passes only
non-empty non-matching slots, and pointer-matches at i. -/
theorem find_entry_present (t : Table) (hwf : TableWF t) {i : Nat} {key : ObjStr}
    (hi : i < t.capacity) (hk : keyAt t i = some key) :
    find_entry t.entries t.capacity key = some i := by
  obtain ⟨hcnt, hload, hfind, huniq⟩ := hwf
  have hcap : 0 < t.capacity := Nat.lt_of_le_of_lt (Nat.zero_le _) hi
  obtain ⟨d, hd, hwd, hpre⟩ := hfind i hi key (mem_keyAt_toList.mpr hk)
  have hidx : key.hash % t.capacity < t.capacity := Nat.mod_lt _ hcap
  have hwalk : ∀ e, (key.hash % t.capacity + e) % t.capacity = walk key.hash t.capacity e := by
    intro e
    unfold walk
    rw [Nat.mod_add_mod]
  have hm : oidMatch key
      (t.entries.getD ((key.hash % t.capacity + d) % t.capacity) Entry.dfl) := by
    rw [hwalk, hwd]
    exact ⟨key, hk, rfl⟩
  have hpre2 : ∀ e < d,
      ¬ (t.entries.getD ((key.hash % t.capacity + e) % t.capacity) Entry.dfl).isEmptySlot ∧
      ¬ oidMatch key (t.entries.getD ((key.hash % t.capacity + e) % t.capacity) Entry.dfl) := by
    intro e he
    rw [hwalk]
    refine ⟨hpre e he, ?_⟩
    rintro ⟨k2, hk2, ho2⟩
    have hne : walk key.hash t.capacity e ≠ i := by
      rw [← hwd]
      unfold walk
      exact walk_ne hcap he hd key.hash
    exact huniq _ (Nat.mod_lt _ hcap) i hi hne k2 (mem_keyAt_toList.mpr hk2) key
      (mem_keyAt_toList.mpr hk) ho2
  have := find_entry_loop_found t.entries t.capacity key t.capacity
    (key.hash % t.capacity) none hd hidx hm hpre2
  rw [hwalk, hwd] at this
  exact this

/-- Probing for an absent key lands on a key-less slot (the first
tombstone of the chain, or its first truly empty slot), with every
earlier probe position keyed. -/
theorem find_entry_absent (t : Table) (hcnt : t.count = countKeys t + countTombs t)
    (hlt : t.count < t.capacity) {key : ObjStr} (habs : oidAbsent t key.oid) :
    ∃ p < t.capacity, find_entry t.entries t.capacity key = some p ∧
      keyAt t p = none ∧
      ∃ dp < t.capacity, walk key.hash t.capacity dp = p ∧
        ∀ e < dp, (t.entryAt (walk key.hash t.capacity e)).key.isSome := by
  have hcap : 0 < t.capacity := Nat.lt_of_le_of_lt (Nat.zero_le _) hlt
  have hidx : key.hash % t.capacity < t.capacity := Nat.mod_lt _ hcap
  have hwalk : ∀ e, (key.hash % t.capacity + e) % t.capacity = walk key.hash t.capacity e := by
    intro e
    unfold walk
    rw [Nat.mod_add_mod]
  obtain ⟨i0, hi0, hemp0⟩ := exists_empty_slot t hcnt hlt
  obtain ⟨d0, hd0, hwd0⟩ := walk_cover hcap (key.hash % t.capacity) hi0
  have hP : ∃ d, (t.entries.getD ((key.hash % t.capacity + d) % t.capacity) Entry.dfl).isEmptySlot :=
    ⟨d0, by rw [hwd0]; exact hemp0⟩
  classical
  let dm := Nat.find hP
  have hdm : (t.entries.getD ((key.hash % t.capacity + dm) % t.capacity) Entry.dfl).isEmptySlot :=
    Nat.find_spec hP
  have hdmle : dm ≤ d0 := Nat.find_le (by rw [hwd0]; exact hemp0)
  have hne : ∀ e < dm, ¬ (t.entries.getD ((key.hash % t.capacity + e) % t.capacity)
      Entry.dfl).isEmptySlot := fun e he => Nat.find_min hP he
  have hnm : ∀ e ≤ dm, ¬ oidMatch key
      (t.entries.getD ((key.hash % t.capacity + e) % t.capacity) Entry.dfl) := by
    intro e he
    exact not_oidMatch_of_absent habs (Nat.mod_lt _ hcap)
  obtain ⟨dp, hdp, hres, hkey, hpref⟩ := find_entry_loop_absent t.entries t.capacity key
    t.capacity (key.hash % t.capacity) (by omega) hidx hdm hne hnm
  refine ⟨(key.hash % t.capacity + dp) % t.capacity, Nat.mod_lt _ hcap, hres, hkey,
    dp, by omega, ?_, ?_⟩
  · rw [← hwalk]
  · intro e he
    have := hpref e he
    rw [hwalk] at this
    exact this

/-! ### Effect of writing one slot -/

theorem writeSlot_capacity {t : Table} {p : Nat} {e : Entry} {c' : Nat} :
    (writeSlot t p e c').capacity = t.capacity := by
  simp [writeSlot, Table.capacity]

theorem writeSlot_count {t : Table} {p : Nat} {e : Entry} {c' : Nat} :
    (writeSlot t p e c').count = c' := rfl

theorem writeSlot_entryAt_self {t : Table} {p : Nat} {e : Entry} {c' : Nat}
    (hp : p < t.capacity) : (writeSlot t p e c').entryAt p = e :=
  getD_set_self hp

theorem writeSlot_entryAt_ne {t : Table} {p j : Nat} {e : Entry} {c' : Nat}
    (h : p ≠ j) : (writeSlot t p e c').entryAt j = t.entryAt j :=
  getD_set_ne e h

theorem writeSlot_keyAt_self {t : Table} {p : Nat} {e : Entry} {c' : Nat}
    (hp : p < t.capacity) : keyAt (writeSlot t p e c') p = e.key := by
  unfold keyAt
  rw [writeSlot_entryAt_self hp]

theorem writeSlot_keyAt_ne {t : Table} {p j : Nat} {e : Entry} {c' : Nat}
    (h : p ≠ j) : keyAt (writeSlot t p e c') j = keyAt t j := by
  unfold keyAt
  rw [writeSlot_entryAt_ne h]

theorem keyed_not_empty {t : Table} {j : Nat} {k : ObjStr} (hk : keyAt t j = some k) :
    ¬ (t.entryAt j).isEmptySlot := by
  intro h
  unfold keyAt at hk
  rw [h.1] at hk
  cases hk

theorem writeSlot_countKeys {t : Table} {p : Nat} {e : Entry} {c' : Nat}
    (hp : p < t.capacity) :
    countKeys (writeSlot t p e c') + (if (t.entryAt p).key.isSome then 1 else 0) =
      countKeys t + (if e.key.isSome then 1 else 0) := by
  have hp' : p < t.entries.length := hp
  have hmem : t.entries[p] ∈ t.entries := List.getElem_mem hp'
  have hEq : t.entries[p] = t.entryAt p := (entryAt_lt hp').symm
  unfold countKeys writeSlot
  rw [List.countP_set _ _ _ _ hp', hEq]
  rcases hb : (t.entryAt p).key.isSome with _ | _
  · simp only [hb, Bool.false_eq_true, if_false]
    omega
  · have hpos : 0 < t.entries.countP (fun e => e.key.isSome) :=
      List.countP_pos_iff.mpr ⟨_, hmem, by rw [hEq]; exact hb⟩
    simp only [hb, eq_self_iff_true, if_true]
    omega

theorem writeSlot_countTombs {t : Table} {p : Nat} {e : Entry} {c' : Nat}
    (hp : p < t.capacity) :
    countTombs (writeSlot t p e c') +
        (if ((t.entryAt p).key.isNone && !isNil (t.entryAt p).value) then 1 else 0) =
      countTombs t + (if (e.key.isNone && !isNil e.value) then 1 else 0) := by
  have hp' : p < t.entries.length := hp
  have hmem : t.entries[p] ∈ t.entries := List.getElem_mem hp'
  have hEq : t.entries[p] = t.entryAt p := (entryAt_lt hp').symm
  unfold countTombs writeSlot
  rw [List.countP_set _ _ _ _ hp', hEq]
  rcases hb : ((t.entryAt p).key.isNone && !isNil (t.entryAt p).value) with _ | _
  · simp only [hb, Bool.false_eq_true, if_false]
    omega
  · have hpos : 0 < t.entries.countP (fun e => e.key.isNone && !isNil e.value) :=
      List.countP_pos_iff.mpr ⟨_, hmem, by rw [hEq]; exact hb⟩
    simp only [hb, eq_self_iff_true, if_true]
    omega

/-- Inserting an absent key: find_entry picks a key-free slot p reachable
from the key's hash over keyed slots only; writing ⟨key, v⟩ there (with
any count) keeps findability and pointer-uniqueness, adds exactly the one
binding, and bumps the key count by one. -/
theorem insert_absent (t : Table) (key : ObjStr) (v : Value)
    (hcnt : countOk t) (hfind : findableAll t) (huniq : uniqOids t)
    (habs : oidAbsent t key.oid) (hlt : t.count < t.capacity) :
    ∃ p < t.capacity, find_entry t.entries t.capacity key = some p ∧
      keyAt t p = none ∧
      ∀ c' : Nat,
        keyAt (writeSlot t p ⟨some key, v⟩ c') p = some key ∧
        findableAll (writeSlot t p ⟨some key, v⟩ c') ∧
        uniqOids (writeSlot t p ⟨some key, v⟩ c') ∧
        countKeys (writeSlot t p ⟨some key, v⟩ c') = countKeys t + 1 ∧
        (((t.entryAt p).value = .vnil ∧
            countTombs (writeSlot t p ⟨some key, v⟩ c') = countTombs t) ∨
          ((t.entryAt p).value ≠ .vnil ∧
            countTombs (writeSlot t p ⟨some key, v⟩ c') + 1 = countTombs t)) ∧
        (∀ k2 v2, entryPresent (writeSlot t p ⟨some key, v⟩ c') k2 v2 ↔
          (entryPresent t k2 v2 ∨ (k2 = key ∧ v2 = v))) := by
  obtain ⟨p, hp, hfe, hkeyp, dp, hdp, hwdp, hpref⟩ := find_entry_absent t hcnt hlt habs
  refine ⟨p, hp, hfe, hkeyp, ?_⟩
  intro c'
  have hcap' : (writeSlot t p (⟨some key, v⟩ : Entry) c').capacity = t.capacity :=
    writeSlot_capacity
  have hkeyAtP : keyAt (writeSlot t p (⟨some key, v⟩ : Entry) c') p = some key :=
    writeSlot_keyAt_self hp
  refine ⟨hkeyAtP, ?_, ?_, ?_, ?_, ?_⟩
  · -- findability survives: keyed slots never become empty
    intro j hj k2 hk2
    rw [hcap'] at hj
    rw [mem_keyAt_toList] at hk2
    unfold keyFindable
    rw [hcap']
    by_cases hjp : j = p
    · rw [hjp, hkeyAtP] at hk2
      obtain rfl : k2 = key := (Option.some.inj hk2).symm
      rw [hjp]
      refine ⟨dp, hdp, hwdp, ?_⟩
      intro e he
      have hkeyed := hpref e he
      by_cases hwe : walk k2.hash t.capacity e = p
      · rw [hwe] at hkeyed
        unfold keyAt at hkeyp
        rw [hkeyp] at hkeyed
        cases hkeyed
      · rw [writeSlot_entryAt_ne (fun h => hwe h.symm)]
        intro hempty
        rw [hempty.1] at hkeyed
        cases hkeyed
    · rw [writeSlot_keyAt_ne (fun h => hjp h.symm)] at hk2
      obtain ⟨d, hd, hwd, hpre⟩ := hfind j hj k2 (mem_keyAt_toList.mpr hk2)
      refine ⟨d, hd, hwd, ?_⟩
      intro e he
      by_cases hwe : walk k2.hash t.capacity e = p
      · rw [hwe, writeSlot_entryAt_self hp]
        intro hempty
        cases hempty.1
      · rw [writeSlot_entryAt_ne (fun h => hwe h.symm)]
        exact hpre e he
  · -- pointer uniqueness: the inserted key's oid is fresh
    intro i hi j hj hij ki hki kj hkj
    rw [hcap'] at hi hj
    rw [mem_keyAt_toList] at hki hkj
    by_cases hip : i = p
    · have hjp : j ≠ p := fun h => hij (by rw [hip, h])
      rw [hip, hkeyAtP] at hki
      obtain rfl : ki = key := (Option.some.inj hki).symm
      rw [writeSlot_keyAt_ne (fun h => hjp h.symm)] at hkj
      intro h
      exact habs j hj kj (mem_keyAt_toList.mpr hkj) h.symm
    · rw [writeSlot_keyAt_ne (fun h => hip h.symm)] at hki
      by_cases hjp : j = p
      · rw [hjp, hkeyAtP] at hkj
        obtain rfl : kj = key := (Option.some.inj hkj).symm
        exact fun h => habs i hi ki (mem_keyAt_toList.mpr hki) h
      · rw [writeSlot_keyAt_ne (fun h => hjp h.symm)] at hkj
        exact huniq i hi j hj hij ki (mem_keyAt_toList.mpr hki) kj (mem_keyAt_toList.mpr hkj)
  · -- one more key
    have hck := @writeSlot_countKeys t p ⟨some key, v⟩ c' hp
    unfold keyAt at hkeyp
    rw [hkeyp] at hck
    simpa using hck
  · -- tombstones: one fewer if the slot was a tombstone
    have hct := @writeSlot_countTombs t p ⟨some key, v⟩ c' hp
    unfold keyAt at hkeyp
    rw [hkeyp] at hct
    by_cases hv : (t.entryAt p).value = .vnil
    · left
      refine ⟨hv, ?_⟩
      rw [hv] at hct
      simpa [isNil] using hct
    · right
      refine ⟨hv, ?_⟩
      rw [isNil_false_iff.mpr hv] at hct
      simpa using hct
  · -- bindings: exactly the new one is added
    intro k2 v2
    constructor
    · rintro ⟨j, hj, hEq⟩
      rw [hcap'] at hj
      by_cases hjp : j = p
      · rw [hjp, writeSlot_entryAt_self hp] at hEq
        right
        exact ⟨by cases hEq; rfl, by cases hEq; rfl⟩
      · left
        rw [writeSlot_entryAt_ne (fun h => hjp h.symm)] at hEq
        exact ⟨j, hj, hEq⟩
    · rintro (⟨j, hj, hEq⟩ | ⟨rfl, rfl⟩)
      · have hjp : j ≠ p := by
          intro h
          rw [h] at hEq
          unfold keyAt at hkeyp
          rw [hEq] at hkeyp
          cases hkeyp
        refine ⟨j, ?_, ?_⟩
        · rw [hcap']
          exact hj
        · rw [writeSlot_entryAt_ne (fun h => hjp h.symm)]
          exact hEq
      · refine ⟨p, ?_, ?_⟩
        · rw [hcap']
          exact hp
        · exact writeSlot_entryAt_self hp

/-- Overwriting the slot that already holds the key leaves the key layout
unchanged and only changes that binding's value. -/
theorem update_present (t : Table) (key : ObjStr) (v : Value)
    (hfind : findableAll t) (huniq : uniqOids t)
    {i : Nat} (hi : i < t.capacity) (hk : keyAt t i = some key) (c' : Nat) :
    (∀ j, keyAt (writeSlot t i ⟨some key, v⟩ c') j = keyAt t j) ∧
    findableAll (writeSlot t i ⟨some key, v⟩ c') ∧
    uniqOids (writeSlot t i ⟨some key, v⟩ c') ∧
    countKeys (writeSlot t i ⟨some key, v⟩ c') = countKeys t ∧
    countTombs (writeSlot t i ⟨some key, v⟩ c') = countTombs t ∧
    (∀ k2 v2, entryPresent (writeSlot t i ⟨some key, v⟩ c') k2 v2 ↔
      ((entryPresent t k2 v2 ∧ k2.oid ≠ key.oid) ∨ (k2 = key ∧ v2 = v))) := by
  have hcap' : (writeSlot t i (⟨some key, v⟩ : Entry) c').capacity = t.capacity :=
    writeSlot_capacity
  have hkeys : ∀ j, keyAt (writeSlot t i (⟨some key, v⟩ : Entry) c') j = keyAt t j := by
    intro j
    by_cases hji : j = i
    · rw [hji, writeSlot_keyAt_self hi, hk]
    · exact writeSlot_keyAt_ne (fun h => hji h.symm)
  refine ⟨hkeys, ?_, ?_, ?_, ?_, ?_⟩
  · intro j hj k2 hk2
    rw [hcap'] at hj
    rw [mem_keyAt_toList, hkeys j] at hk2
    obtain ⟨d, hd, hwd, hpre⟩ := hfind j hj k2 (mem_keyAt_toList.mpr hk2)
    unfold keyFindable
    rw [hcap']
    refine ⟨d, hd, hwd, ?_⟩
    intro e he
    by_cases hwe : walk k2.hash t.capacity e = i
    · rw [hwe, writeSlot_entryAt_self hi]
      intro hempty
      cases hempty.1
    · rw [writeSlot_entryAt_ne (fun h => hwe h.symm)]
      exact hpre e he
  · intro a ha b hb hab ka hka kb hkb
    rw [hcap'] at ha hb
    rw [mem_keyAt_toList, hkeys a] at hka
    rw [mem_keyAt_toList, hkeys b] at hkb
    exact huniq a ha b hb hab ka (mem_keyAt_toList.mpr hka) kb (mem_keyAt_toList.mpr hkb)
  · have hck := @writeSlot_countKeys t i ⟨some key, v⟩ c' hi
    unfold keyAt at hk
    rw [hk] at hck
    simpa using hck
  · have hct := @writeSlot_countTombs t i ⟨some key, v⟩ c' hi
    unfold keyAt at hk
    rw [hk] at hct
    simpa using hct
  · intro k2 v2
    constructor
    · rintro ⟨j, hj, hEq⟩
      rw [hcap'] at hj
      by_cases hji : j = i
      · rw [hji, writeSlot_entryAt_self hi] at hEq
        right
        exact ⟨by cases hEq; rfl, by cases hEq; rfl⟩
      · rw [writeSlot_entryAt_ne (fun h => hji h.symm)] at hEq
        left
        refine ⟨⟨j, hj, hEq⟩, ?_⟩
        have hk2j : keyAt t j = some k2 := by
          unfold keyAt
          rw [hEq]
        exact huniq j hj i hi hji k2 (mem_keyAt_toList.mpr hk2j) key (mem_keyAt_toList.mpr hk)
    · rintro (⟨⟨j, hj, hEq⟩, hne⟩ | ⟨rfl, rfl⟩)
      · have hji : j ≠ i := by
          intro h
          rw [h] at hEq
          unfold keyAt at hk
          rw [hEq] at hk
          exact hne (by cases hk; rfl)
        refine ⟨j, by rw [hcap']; exact hj, ?_⟩
        rw [writeSlot_entryAt_ne (fun h => hji h.symm)]
        exact hEq
      · refine ⟨i, by rw [hcap']; exact hi, writeSlot_entryAt_self hi⟩

/-! ### Specifications of table_get and table_del -/

theorem table_get_present (t : Table) (hwf : TableWF t) {i : Nat} {key : ObjStr}
    (hi : i < t.capacity) (hk : keyAt t i = some key) :
    table_get t key = some (some (t.entryAt i).value) := by
  obtain ⟨hcnt, hload, hfind, huniq⟩ := hwf
  have hpos : 0 < t.count := count_pos_of_key hcnt hi hk
  unfold table_get
  rw [if_neg (by omega), find_entry_present t ⟨hcnt, hload, hfind, huniq⟩ hi hk]
  unfold keyAt at hk
  simp only [hk]

theorem table_get_absent (t : Table) (hcnt : countOk t) (hload : loadOk t)
    {key : ObjStr} (habs : oidAbsent t key.oid) :
    table_get t key = some none := by
  by_cases h0 : t.count = 0
  · unfold table_get
    rw [if_pos h0]
  · have hlt : t.count < t.capacity := by
      unfold loadOk at hload
      omega
    obtain ⟨p, hp, hfe, hkeyp, -⟩ := find_entry_absent t hcnt hlt habs
    unfold table_get
    rw [if_neg h0, hfe]
    unfold keyAt at hkeyp
    simp only [hkeyp]

/-- Deleting a present key tombstones exactly its slot, with count (and
hence the load bound) untouched, and removes exactly that binding. -/
theorem table_del_present (t : Table) (hwf : TableWF t) {i : Nat} {key : ObjStr}
    (hi : i < t.capacity) (hk : keyAt t i = some key) :
    table_del t key = some (true, writeSlot t i ⟨none, .vbool true⟩ t.count) ∧
    TableWF (writeSlot t i ⟨none, .vbool true⟩ t.count) ∧
    keyAt (writeSlot t i ⟨none, .vbool true⟩ t.count) i = none ∧
    oidAbsent (writeSlot t i ⟨none, .vbool true⟩ t.count) key.oid ∧
    (∀ k2 v2, entryPresent (writeSlot t i ⟨none, .vbool true⟩ t.count) k2 v2 ↔
      (entryPresent t k2 v2 ∧ k2.oid ≠ key.oid)) := by
  obtain ⟨hcnt, hload, hfind, huniq⟩ := hwf
  have hpos : 0 < t.count := count_pos_of_key hcnt hi hk
  have hcap' : (writeSlot t i (⟨none, .vbool true⟩ : Entry) t.count).capacity = t.capacity :=
    writeSlot_capacity
  have hkeyi : keyAt (writeSlot t i (⟨none, .vbool true⟩ : Entry) t.count) i = none :=
    writeSlot_keyAt_self hi
  have hck := @writeSlot_countKeys t i ⟨none, .vbool true⟩ t.count hi
  have hct := @writeSlot_countTombs t i ⟨none, .vbool true⟩ t.count hi
  have hksome : (t.entryAt i).key.isSome = true := by
    unfold keyAt at hk
    rw [hk]
    rfl
  have htombf : ((t.entryAt i).key.isNone && !isNil (t.entryAt i).value) = false := by
    unfold keyAt at hk
    rw [hk]
    rfl
  rw [hksome] at hck
  rw [htombf] at hct
  simp only [eq_self_iff_true, if_true, Bool.false_eq_true, if_false] at hck hct
  have hz1 : (if (none : Option ObjStr).isSome = true then (1 : Nat) else 0) = 0 := rfl
  have hz2 :
      (if ((none : Option ObjStr).isNone && !isNil (Value.vbool true)) = true
        then (1 : Nat) else 0) = 1 := rfl
  rw [hz1] at hck
  rw [hz2] at hct
  have habs' : oidAbsent (writeSlot t i (⟨none, .vbool true⟩ : Entry) t.count) key.oid := by
    intro j hj kj hkj
    rw [hcap'] at hj
    rw [mem_keyAt_toList] at hkj
    by_cases hji : j = i
    · rw [hji, hkeyi] at hkj
      cases hkj
    · rw [writeSlot_keyAt_ne (fun h => hji h.symm)] at hkj
      exact huniq j hj i hi hji kj (mem_keyAt_toList.mpr hkj) key (mem_keyAt_toList.mpr hk)
  refine ⟨?_, ⟨?_, ?_, ?_, ?_⟩, hkeyi, habs', ?_⟩
  · unfold table_del
    rw [if_neg (by omega), find_entry_present t ⟨hcnt, hload, hfind, huniq⟩ hi hk]
    unfold keyAt at hk
    simp only [hk]
    rfl
  · -- countOk: one key becomes one tombstone
    unfold countOk at hcnt ⊢
    rw [writeSlot_count]
    omega
  · unfold loadOk at hload ⊢
    rw [writeSlot_count, hcap']
    exact hload
  · intro j hj k2 hk2
    rw [hcap'] at hj
    rw [mem_keyAt_toList] at hk2
    by_cases hji : j = i
    · rw [hji, hkeyi] at hk2
      cases hk2
    · rw [writeSlot_keyAt_ne (fun h => hji h.symm)] at hk2
      obtain ⟨d, hd, hwd, hpre⟩ := hfind j hj k2 (mem_keyAt_toList.mpr hk2)
      unfold keyFindable
      rw [hcap']
      refine ⟨d, hd, hwd, ?_⟩
      intro e he
      by_cases hwe : walk k2.hash t.capacity e = i
      · rw [hwe, writeSlot_entryAt_self hi]
        intro hempty
        cases hempty.2
      · rw [writeSlot_entryAt_ne (fun h => hwe h.symm)]
        exact hpre e he
  · intro a ha b hb hab ka hka kb hkb
    rw [hcap'] at ha hb
    rw [mem_keyAt_toList] at hka hkb
    by_cases hai : a = i
    · rw [hai, hkeyi] at hka
      cases hka
    · by_cases hbi : b = i
      · rw [hbi, hkeyi] at hkb
        cases hkb
      · rw [writeSlot_keyAt_ne (fun h => hai h.symm)] at hka
        rw [writeSlot_keyAt_ne (fun h => hbi h.symm)] at hkb
        exact huniq a ha b hb hab ka (mem_keyAt_toList.mpr hka) kb (mem_keyAt_toList.mpr hkb)
  · intro k2 v2
    constructor
    · rintro ⟨j, hj, hEq⟩
      rw [hcap'] at hj
      by_cases hji : j = i
      · rw [hji, writeSlot_entryAt_self hi] at hEq
        cases hEq
      · rw [writeSlot_entryAt_ne (fun h => hji h.symm)] at hEq
        have hk2j : keyAt t j = some k2 := by
          unfold keyAt
          rw [hEq]
        exact ⟨⟨j, hj, hEq⟩,
          huniq j hj i hi hji k2 (mem_keyAt_toList.mpr hk2j) key (mem_keyAt_toList.mpr hk)⟩
    · rintro ⟨⟨j, hj, hEq⟩, hne⟩
      have hji : j ≠ i := by
        intro h
        rw [h] at hEq
        unfold keyAt at hk
        rw [hEq] at hk
        exact hne (by cases hk; rfl)
      refine ⟨j, by rw [hcap']; exact hj, ?_⟩
      rw [writeSlot_entryAt_ne (fun h => hji h.symm)]
      exact hEq

theorem table_del_absent (t : Table) (hcnt : countOk t) (hload : loadOk t)
    {key : ObjStr} (habs : oidAbsent t key.oid) :
    table_del t key = some (false, t) := by
  by_cases h0 : t.count = 0
  · unfold table_del
    rw [if_pos h0]
  · have hlt : t.count < t.capacity := by
      unfold loadOk at hload
      omega
    obtain ⟨p, hp, hfe, hkeyp, -⟩ := find_entry_absent t hcnt hlt habs
    unfold table_del
    rw [if_neg h0, hfe]
    unfold keyAt at hkeyp
    simp only [hkeyp]

/-! ### Specification of adjust_capacity (resize) -/

theorem mem_option_toList {o : Option ObjStr} {k : ObjStr} :
    k ∈ o.toList ↔ o = some k := by
  cases o <;> simp
  exact eq_comm

theorem entryPresent_iff_mem {t : Table} {k : ObjStr} {v : Value} :
    entryPresent t k v ↔ (⟨some k, v⟩ : Entry) ∈ t.entries := by
  constructor
  · rintro ⟨i, hi, hEq⟩
    rw [entryAt_lt hi] at hEq
    exact hEq ▸ List.getElem_mem hi
  · intro hmem
    obtain ⟨i, hi, hEq⟩ := List.mem_iff_getElem.mp hmem
    exact ⟨i, hi, by rw [entryAt_lt hi, hEq]⟩

theorem uniq_pairwise {t : Table} (huniq : uniqOids t) :
    t.entries.Pairwise
      (fun e1 e2 => ∀ k1 ∈ e1.key.toList, ∀ k2 ∈ e2.key.toList, k1.oid ≠ k2.oid) := by
  rw [List.pairwise_iff_getElem]
  intro i j hi hj hij k1 hk1 k2 hk2
  have h1 : keyAt t i = some k1 := by
    unfold keyAt
    rw [entryAt_lt hi]
    exact mem_option_toList.mp hk1
  have h2 : keyAt t j = some k2 := by
    unfold keyAt
    rw [entryAt_lt hj]
    exact mem_option_toList.mp hk2
  exact huniq i hi j hj (by omega) k1 (mem_keyAt_toList.mpr h1) k2 (mem_keyAt_toList.mpr h2)

theorem entryAt_replicate {c cap j : Nat} :
    (Table.entryAt ⟨c, List.replicate cap Entry.dfl⟩ j) = Entry.dfl := by
  unfold Table.entryAt
  rw [List.getD_eq_getElem?_getD, List.getElem?_replicate]
  by_cases h : j < cap <;> simp [h]

/-- The re-insertion loop of adjust_capacity: starting from any
well-formed tombstone-free table with enough room, inserting a list of
entries with pairwise-distinct, absent keys succeeds and yields exactly
the union of the bindings. -/
theorem adjust_fold (cap2 : Nat) :
    ∀ (es : List Entry) (T : Table),
      T.capacity = cap2 →
      T.count = countKeys T →
      countTombs T = 0 →
      findableAll T →
      uniqOids T →
      T.count + es.countP (fun e => e.key.isSome) < cap2 →
      es.Pairwise (fun e1 e2 => ∀ k1 ∈ e1.key.toList, ∀ k2 ∈ e2.key.toList, k1.oid ≠ k2.oid) →
      (∀ e ∈ es, ∀ k ∈ e.key.toList, oidAbsent T k.oid) →
      ∃ T' : Table,
        es.foldl (adjust_step cap2) (some (T.entries, T.count)) = some (T'.entries, T'.count) ∧
        T'.capacity = cap2 ∧
        T'.count = countKeys T' ∧
        countTombs T' = 0 ∧
        findableAll T' ∧ uniqOids T' ∧
        T'.count = T.count + es.countP (fun e => e.key.isSome) ∧
        (∀ k v, entryPresent T' k v ↔
          (entryPresent T k v ∨ (⟨some k, v⟩ : Entry) ∈ es)) := by
  intro es
  induction es with
  | nil =>
    intro T h1 h2 h3 h4 h5 hroom hpw habs
    exact ⟨T, rfl, h1, h2, h3, h4, h5, by simp, fun k v => by simp⟩
  | cons e0 rest ih =>
    intro T h1 h2 h3 h4 h5 hroom hpw habs
    rw [List.foldl_cons]
    have hpwc := List.pairwise_cons.mp hpw
    rcases hk0 : e0.key with _ | k
    · -- NULL key: the loop skips this entry
      have hstep : adjust_step cap2 (some (T.entries, T.count)) e0 = some (T.entries, T.count) := by
        unfold adjust_step
        simp only [hk0]
      rw [hstep]
      have hcp : (e0 :: rest).countP (fun e => e.key.isSome) =
          rest.countP (fun e => e.key.isSome) := by
        rw [List.countP_cons]
        simp [hk0]
      obtain ⟨T', hfold, c1, c2, c3, c4, c5, c6, c7⟩ := ih T h1 h2 h3 h4 h5
        (by omega) hpwc.2 (fun e he k hk => habs e (List.mem_cons_of_mem _ he) k hk)
      refine ⟨T', hfold, c1, c2, c3, c4, c5, by omega, ?_⟩
      intro kk vv
      rw [c7 kk vv]
      simp only [List.mem_cons]
      constructor
      · rintro (h | h)
        · exact Or.inl h
        · exact Or.inr (Or.inr h)
      · rintro (h | h | h)
        · exact Or.inl h
        · rw [← h] at hk0
          cases hk0
        · exact Or.inr h
    · -- keyed entry: re-insert via find_entry on the new array
      have habs0 : oidAbsent T k.oid :=
        habs e0 (List.mem_cons_self ..) k (by rw [hk0]; simp)
      have hcntOk : countOk T := by
        unfold countOk
        omega
      have hcp : (e0 :: rest).countP (fun e => e.key.isSome) =
          rest.countP (fun e => e.key.isSome) + 1 := by
        rw [List.countP_cons]
        simp [hk0]
      have hlt : T.count < T.capacity := by
        rw [h1]
        omega
      obtain ⟨p, hp, hfe, hkeyp, hc'⟩ := insert_absent T k e0.value hcntOk h4 h5 habs0 hlt
      obtain ⟨hkeyAtP, hfind1, huniq1, hck1, htomb1, hpres1⟩ := hc' (T.count + 1)
      have hstep : adjust_step cap2 (some (T.entries, T.count)) e0 =
          some ((writeSlot T p ⟨some k, e0.value⟩ (T.count + 1)).entries,
            (writeSlot T p ⟨some k, e0.value⟩ (T.count + 1)).count) := by
        unfold adjust_step
        rw [h1] at hfe
        simp only [hk0, hfe]
        rfl
      rw [hstep]
      have hcap1 : (writeSlot T p (⟨some k, e0.value⟩ : Entry) (T.count + 1)).capacity = cap2 :=
        writeSlot_capacity.trans h1
      have htombs1 : countTombs (writeSlot T p (⟨some k, e0.value⟩ : Entry) (T.count + 1)) = 0 := by
        rcases htomb1 with ⟨-, h⟩ | ⟨-, h⟩
        · omega
        · omega
      have hcount1 : (writeSlot T p (⟨some k, e0.value⟩ : Entry) (T.count + 1)).count =
          countKeys (writeSlot T p (⟨some k, e0.value⟩ : Entry) (T.count + 1)) := by
        rw [writeSlot_count, hck1]
        omega
      have habs1 : ∀ e ∈ rest, ∀ k2 ∈ e.key.toList,
          oidAbsent (writeSlot T p (⟨some k, e0.value⟩ : Entry) (T.count + 1)) k2.oid := by
        intro e he k2 hk2 j hj kj hkj
        rw [writeSlot_capacity] at hj
        rw [mem_keyAt_toList] at hkj
        by_cases hjp : j = p
        · rw [hjp, hkeyAtP] at hkj
          obtain rfl : kj = k := (Option.some.inj hkj).symm
          exact hpwc.1 e he kj (by rw [hk0]; simp) k2 hk2
        · rw [writeSlot_keyAt_ne (fun h => hjp h.symm)] at hkj
          exact habs e (List.mem_cons_of_mem _ he) k2 hk2 j hj kj (mem_keyAt_toList.mpr hkj)
      have hroom1 : (writeSlot T p (⟨some k, e0.value⟩ : Entry) (T.count + 1)).count +
          rest.countP (fun e => e.key.isSome) < cap2 := by
        rw [writeSlot_count]
        omega
      obtain ⟨T', hfold, c1, c2, c3, c4, c5, c6, c7⟩ :=
        ih (writeSlot T p ⟨some k, e0.value⟩ (T.count + 1)) hcap1 hcount1 htombs1
          hfind1 huniq1 hroom1 hpwc.2 habs1
      refine ⟨T', hfold, c1, c2, c3, c4, c5, ?_, ?_⟩
      · rw [c6, writeSlot_count]
        omega
      · intro kk vv
        rw [c7 kk vv, hpres1 kk vv]
        simp only [List.mem_cons]
        have he0 : e0 = (⟨some k, e0.value⟩ : Entry) := by rw [← hk0]
        constructor
        · rintro ((h | ⟨rfl, rfl⟩) | h)
          · exact Or.inl h
          · exact Or.inr (Or.inl he0.symm)
          · exact Or.inr (Or.inr h)
        · rintro (h | h | h)
          · exact Or.inl (Or.inl h)
          · have h1 := congrArg Entry.key h
            have h2 := congrArg Entry.value h
            rw [hk0] at h1
            exact Or.inl (Or.inr ⟨Option.some.inj h1, h2⟩)
          · exact Or.inr h

theorem adjust_capacity_spec (t : Table) (hcnt : countOk t) (hfind : findableAll t)
    (huniq : uniqOids t) (cap2 : Nat) (hroom : countKeys t < cap2) :
    ∃ t', adjust_capacity t cap2 = some t' ∧ t'.capacity = cap2 ∧
      t'.count = countKeys t ∧ countTombs t' = 0 ∧ countOk t' ∧
      findableAll t' ∧ uniqOids t' ∧
      (∀ k v, entryPresent t' k v ↔ entryPresent t k v) := by
  have hT0cap : (Table.capacity ⟨0, List.replicate cap2 Entry.dfl⟩) = cap2 := by
    unfold Table.capacity
    simp
  have hT0keys : countKeys ⟨0, List.replicate cap2 Entry.dfl⟩ = 0 := by
    unfold countKeys
    rw [List.countP_eq_zero]
    intro e he
    rw [List.eq_of_mem_replicate he]
    simp [Entry.dfl]
  have hT0tombs : countTombs ⟨0, List.replicate cap2 Entry.dfl⟩ = 0 := by
    unfold countTombs
    rw [List.countP_eq_zero]
    intro e he
    rw [List.eq_of_mem_replicate he]
    simp [Entry.dfl, isNil]
  have hT0find : findableAll ⟨0, List.replicate cap2 Entry.dfl⟩ := by
    intro j hj kk hkk
    rw [mem_keyAt_toList] at hkk
    unfold keyAt at hkk
    rw [entryAt_replicate] at hkk
    cases hkk
  have hT0uniq : uniqOids ⟨0, List.replicate cap2 Entry.dfl⟩ := by
    intro i hi j hj hij ki hki kj hkj
    rw [mem_keyAt_toList] at hki
    unfold keyAt at hki
    rw [entryAt_replicate] at hki
    cases hki
  have hT0abs : ∀ e ∈ t.entries, ∀ k ∈ e.key.toList,
      oidAbsent ⟨0, List.replicate cap2 Entry.dfl⟩ k.oid := by
    intro e he k hk j hj kj hkj
    rw [mem_keyAt_toList] at hkj
    unfold keyAt at hkj
    rw [entryAt_replicate] at hkj
    cases hkj
  obtain ⟨T', hfold, c1, c2, c3, c4, c5, c6, c7⟩ := adjust_fold cap2 t.entries
    ⟨0, List.replicate cap2 Entry.dfl⟩ hT0cap (by rw [hT0keys]) hT0tombs hT0find hT0uniq
    (by
      show 0 + t.entries.countP (fun e => e.key.isSome) < cap2
      unfold countKeys at hroom
      omega)
    (uniq_pairwise huniq) hT0abs
  refine ⟨T', ?_, c1, ?_, c3, ?_, c4, c5, ?_⟩
  · unfold adjust_capacity
    rw [hfold]
    rfl
  · unfold countKeys
    simpa using c6
  · unfold countOk
    omega
  · intro k v
    rw [c7 k v]
    constructor
    · rintro (⟨j, hj, hEq⟩ | h)
      · rw [hT0cap] at hj
        rw [entryAt_replicate] at hEq
        cases hEq
      · exact entryPresent_iff_mem.mpr h
    · intro h
      exact Or.inr (entryPresent_iff_mem.mp h)

/-! ### Specification of table_set -/

theorem table_set_eq (t t1 : Table) (key : ObjStr) (v : Value)
    (h1 : (if loadExceeded t then adjust_capacity t (grow_capacity t.capacity) else some t) =
      some t1)
    {p : Nat} (h2 : find_entry t1.entries t1.capacity key = some p) :
    table_set t key v = some ((keyAt t1 p).isNone,
      writeSlot t1 p ⟨some key, v⟩
        (if (keyAt t1 p).isNone && isNil (t1.entryAt p).value then t1.count + 1
         else t1.count)) := by
  simp only [table_set, h1, h2]
  rfl

theorem keyPresent_iff_exists_entry {t : Table} {k : ObjStr} :
    (∃ i < t.capacity, keyAt t i = some k) ↔ ∃ v, entryPresent t k v := by
  constructor
  · rintro ⟨i, hi, hk⟩
    refine ⟨(t.entryAt i).value, i, hi, ?_⟩
    unfold keyAt at hk
    rw [← hk]
  · rintro ⟨v, i, hi, hEq⟩
    refine ⟨i, hi, ?_⟩
    unfold keyAt
    rw [hEq]


theorem table_set_spec (t : Table) (hwf : TableWF t) (key : ObjStr) (v : Value)
    (hpre : oidAbsent t key.oid ∨ ∃ i < t.capacity, keyAt t i = some key) :
    ∃ isNew t', table_set t key v = some (isNew, t') ∧ TableWF t' ∧
      (∃ i < t'.capacity, t'.entryAt i = ⟨some key, v⟩) ∧
      (isNew = true ↔ oidAbsent t key.oid) ∧
      (∀ k2 v2, entryPresent t' k2 v2 ↔
        ((entryPresent t k2 v2 ∧ k2.oid ≠ key.oid) ∨ (k2 = key ∧ v2 = v))) := by
  obtain ⟨hcnt, hload, hfind, huniq⟩ := hwf
  have hload' : 4 * t.count ≤ 3 * t.capacity := hload
  have hkeysle : countKeys t ≤ t.count := by
    unfold countOk at hcnt
    omega
  -- step 1: the (possibly) resized table t1 and its invariants
  obtain ⟨t1, ht1, hcnt1, hload1, hfind1, huniq1, hpres01, hcntle1⟩ :
      ∃ t1, (if loadExceeded t then adjust_capacity t (grow_capacity t.capacity) else some t) =
          some t1 ∧
        countOk t1 ∧ loadOk t1 ∧ findableAll t1 ∧ uniqOids t1 ∧
        (∀ k2 v2, entryPresent t1 k2 v2 ↔ entryPresent t k2 v2) ∧
        4 * (t1.count + 1) ≤ 3 * t1.capacity := by
    by_cases hl : loadExceeded t
    · have hroom : countKeys t < grow_capacity t.capacity := by
        unfold grow_capacity
        by_cases hc : t.capacity < 8
        · rw [if_pos hc]
          omega
        · rw [if_neg hc]
          omega
      obtain ⟨t1, hadj, c1, c2, c3, c4, c5, c6, c7⟩ :=
        adjust_capacity_spec t hcnt hfind huniq (grow_capacity t.capacity) hroom
      have hb : 4 * (t1.count + 1) ≤ 3 * t1.capacity := by
        rw [c2, c1]
        unfold grow_capacity
        by_cases hc : t.capacity < 8
        · rw [if_pos hc]
          omega
        · rw [if_neg hc]
          omega
      refine ⟨t1, by rw [if_pos hl, hadj], c4, ?_, c5, c6, c7, hb⟩
      show 4 * t1.count ≤ 3 * t1.capacity
      omega
    · have hlx : ¬ 4 * (t.count + 1) > 3 * t.capacity := by
        unfold loadExceeded at hl
        simpa using hl
      refine ⟨t, by rw [if_neg hl], hcnt, hload, hfind, huniq, fun _ _ => Iff.rfl, by omega⟩
  have hcap1w : ∀ (p : Nat) (e : Entry) (c' : Nat),
      (writeSlot t1 p e c').capacity = t1.capacity := fun _ _ _ => writeSlot_capacity
  rcases hpre with habs | ⟨i0, hi0, hk0⟩
  · -- the key is absent: a fresh binding is inserted and is_new is true
    have habs1 : oidAbsent t1 key.oid := by
      intro j hj kj hkj
      rw [mem_keyAt_toList] at hkj
      obtain ⟨vv, hvv⟩ := keyPresent_iff_exists_entry.mp ⟨j, hj, hkj⟩
      rw [hpres01] at hvv
      obtain ⟨j2, hj2, hEq2⟩ := hvv
      have hkj2 : keyAt t j2 = some kj := by
        unfold keyAt
        rw [hEq2]
      exact habs j2 hj2 kj (mem_keyAt_toList.mpr hkj2)
    have hlt1 : t1.count < t1.capacity := by omega
    obtain ⟨p, hp, hfe1, hkeyp1, hc'⟩ := insert_absent t1 key v hcnt1 hfind1 huniq1 habs1 hlt1
    have hset := table_set_eq t t1 key v ht1 hfe1
    rw [hkeyp1] at hset
    have hcnt1' : t1.count = countKeys t1 + countTombs t1 := hcnt1
    by_cases hv : (t1.entryAt p).value = .vnil
    · -- fresh slot: count is incremented
      have hcif : (if (none : Option ObjStr).isNone && isNil (t1.entryAt p).value
          then t1.count + 1 else t1.count) = t1.count + 1 := by
        rw [hv]
        rfl
      rw [hcif] at hset
      obtain ⟨hkeyAtP, hfindw, huniqw, hckw, htombw, hpresw⟩ := hc' (t1.count + 1)
      have htombs : countTombs (writeSlot t1 p ⟨some key, v⟩ (t1.count + 1)) = countTombs t1 := by
        rcases htombw with ⟨-, h⟩ | ⟨hne, -⟩
        · exact h
        · exact absurd hv hne
      refine ⟨true, writeSlot t1 p ⟨some key, v⟩ (t1.count + 1), by
        rw [hset]; rfl, ⟨?_, ?_, hfindw, huniqw⟩, ?_, iff_of_true rfl habs, ?_⟩
      · show (t1.count + 1) = countKeys (writeSlot t1 p ⟨some key, v⟩ (t1.count + 1)) +
          countTombs (writeSlot t1 p ⟨some key, v⟩ (t1.count + 1))
        rw [hckw, htombs]
        omega
      · show 4 * (t1.count + 1) ≤ 3 * (writeSlot t1 p ⟨some key, v⟩ (t1.count + 1)).capacity
        rw [hcap1w]
        omega
      · refine ⟨p, ?_, writeSlot_entryAt_self hp⟩
        rw [hcap1w]
        exact hp
      · intro k2 v2
        rw [hpresw k2 v2, hpres01 k2 v2]
        constructor
        · rintro (h | h)
          · refine Or.inl ⟨h, ?_⟩
            obtain ⟨j2, hj2, hEq2⟩ := h
            have hkj2 : keyAt t j2 = some k2 := by
              unfold keyAt
              rw [hEq2]
            exact habs j2 hj2 k2 (mem_keyAt_toList.mpr hkj2)
          · exact Or.inr h
        · rintro (⟨h, -⟩ | h)
          · exact Or.inl h
          · exact Or.inr h
    · -- tombstone reuse: count is NOT incremented
      have hcif : (if (none : Option ObjStr).isNone && isNil (t1.entryAt p).value
          then t1.count + 1 else t1.count) = t1.count := by
        rw [isNil_false_iff.mpr hv]
        rfl
      rw [hcif] at hset
      obtain ⟨hkeyAtP, hfindw, huniqw, hckw, htombw, hpresw⟩ := hc' t1.count
      have htombs : countTombs (writeSlot t1 p ⟨some key, v⟩ t1.count) + 1 = countTombs t1 := by
        rcases htombw with ⟨h, -⟩ | ⟨-, h⟩
        · exact absurd h hv
        · exact h
      refine ⟨true, writeSlot t1 p ⟨some key, v⟩ t1.count, by
        rw [hset]; rfl, ⟨?_, ?_, hfindw, huniqw⟩, ?_, iff_of_true rfl habs, ?_⟩
      · show t1.count = countKeys (writeSlot t1 p ⟨some key, v⟩ t1.count) +
          countTombs (writeSlot t1 p ⟨some key, v⟩ t1.count)
        rw [hckw]
        omega
      · show 4 * t1.count ≤ 3 * (writeSlot t1 p ⟨some key, v⟩ t1.count).capacity
        rw [hcap1w]
        omega
      · refine ⟨p, ?_, writeSlot_entryAt_self hp⟩
        rw [hcap1w]
        exact hp
      · intro k2 v2
        rw [hpresw k2 v2, hpres01 k2 v2]
        constructor
        · rintro (h | h)
          · refine Or.inl ⟨h, ?_⟩
            obtain ⟨j2, hj2, hEq2⟩ := h
            have hkj2 : keyAt t j2 = some k2 := by
              unfold keyAt
              rw [hEq2]
            exact habs j2 hj2 k2 (mem_keyAt_toList.mpr hkj2)
          · exact Or.inr h
        · rintro (⟨h, -⟩ | h)
          · exact Or.inl h
          · exact Or.inr h
  · -- the key is already present: the binding is updated in place
    have hnabs : ¬ oidAbsent t key.oid := by
      intro habs
      exact habs i0 hi0 key (mem_keyAt_toList.mpr hk0) rfl
    have hpresent1 : ∃ i1 < t1.capacity, keyAt t1 i1 = some key := by
      have h0 : entryPresent t key (t.entryAt i0).value := ⟨i0, hi0, by
        unfold keyAt at hk0
        rw [← hk0]⟩
      have h1 := (hpres01 key (t.entryAt i0).value).mpr h0
      exact keyPresent_iff_exists_entry.mpr ⟨_, h1⟩
    obtain ⟨i1, hi1, hk1⟩ := hpresent1
    have hfe1 := find_entry_present t1 ⟨hcnt1, hload1, hfind1, huniq1⟩ hi1 hk1
    have hset := table_set_eq t t1 key v ht1 hfe1
    rw [hk1] at hset
    have hcif : (if (some key).isNone && isNil (t1.entryAt i1).value
        then t1.count + 1 else t1.count) = t1.count := rfl
    rw [hcif] at hset
    obtain ⟨hkeysU, hfindU, huniqU, hckU, hctU, hpresU⟩ :=
      update_present t1 key v hfind1 huniq1 hi1 hk1 t1.count
    refine ⟨false, writeSlot t1 i1 ⟨some key, v⟩ t1.count, by
      rw [hset]; rfl, ⟨?_, ?_, hfindU, huniqU⟩, ?_, iff_of_false (by simp) hnabs, ?_⟩
    · show t1.count = countKeys (writeSlot t1 i1 ⟨some key, v⟩ t1.count) +
        countTombs (writeSlot t1 i1 ⟨some key, v⟩ t1.count)
      rw [hckU, hctU]
      exact hcnt1
    · show 4 * t1.count ≤ 3 * (writeSlot t1 i1 ⟨some key, v⟩ t1.count).capacity
      rw [hcap1w]
      exact hload1
    · refine ⟨i1, ?_, writeSlot_entryAt_self hi1⟩
      rw [hcap1w]
      exact hi1
    · intro k2 v2
      rw [hpresU k2 v2]
      constructor
      · rintro (⟨h, hne⟩ | h)
        · exact Or.inl ⟨(hpres01 k2 v2).mp h, hne⟩
        · exact Or.inr h
      · rintro (⟨h, hne⟩ | h)
        · exact Or.inl ⟨(hpres01 k2 v2).mpr h, hne⟩
        · exact Or.inr h

/-! ### Specification of table_find_string -/

/-- A key with the sought content is present (and hashes are stored
correctly, and contents are unique): table_find_string returns exactly
that key. -/
theorem tfs_found_exact (t : Table) (hcnt : countOk t) (hfind : findableAll t)
    (hhash : ∀ i < t.capacity, ∀ k ∈ (keyAt t i).toList, k.hash = hash_string k.chars)
    (hcu : ∀ i < t.capacity, ∀ j < t.capacity, i ≠ j →
      ∀ ki ∈ (keyAt t i).toList, ∀ kj ∈ (keyAt t j).toList, ki.chars ≠ kj.chars)
    {i : Nat} {k0 : ObjStr} {chars : List Nat}
    (hi : i < t.capacity) (hk : keyAt t i = some k0) (hchars : k0.chars = chars) :
    table_find_string t chars (hash_string chars) = some (some k0) := by
  have hpos : 0 < t.count := count_pos_of_key hcnt hi hk
  have hcap : 0 < t.capacity := Nat.lt_of_le_of_lt (Nat.zero_le _) hi
  have hk0hash : k0.hash = hash_string chars := by
    rw [← hchars]
    exact hhash i hi k0 (mem_keyAt_toList.mpr hk)
  obtain ⟨d, hd, hwd, hpre⟩ := hfind i hi k0 (mem_keyAt_toList.mpr hk)
  have hidx : hash_string chars % t.capacity < t.capacity := Nat.mod_lt _ hcap
  have hwalk : ∀ e, (hash_string chars % t.capacity + e) % t.capacity =
      walk k0.hash t.capacity e := by
    intro e
    unfold walk
    rw [hk0hash, Nat.mod_add_mod]
  unfold table_find_string
  rw [if_neg (by omega)]
  have hkd : (t.entries.getD ((hash_string chars % t.capacity + d) % t.capacity)
      Entry.dfl).key = some k0 := by
    rw [hwalk, hwd]
    exact hk
  have := tfs_loop_found t.entries t.capacity chars (hash_string chars)
    t.capacity (hash_string chars % t.capacity) hd hidx k0 hkd
    ⟨by rw [hchars], hk0hash, hchars⟩ ?_
  · exact this
  · intro e he
    rw [hwalk]
    refine ⟨hpre e he, ?_⟩
    rintro ⟨k2, hk2, -, -, hk2chars⟩
    have hne : walk k0.hash t.capacity e ≠ i := by
      rw [← hwd]
      unfold walk
      exact walk_ne hcap he hd k0.hash
    have hk2At : keyAt t (walk k0.hash t.capacity e) = some k2 := hk2
    exact hcu _ (Nat.mod_lt _ hcap) i hi hne k2 (mem_keyAt_toList.mpr hk2At) k0
      (mem_keyAt_toList.mpr hk) (by rw [hk2chars, hchars])

/-- No key has the sought content: table_find_string reports a miss
(whatever the probe hash is). -/
theorem tfs_content_absent (t : Table) (hcnt : countOk t) (hload : loadOk t)
    {chars : List Nat} (hca : contentAbsent t chars) (h : Nat) :
    table_find_string t chars h = some none := by
  by_cases h0 : t.count = 0
  · unfold table_find_string
    rw [if_pos h0]
  · have hlt : t.count < t.capacity := by
      have hload' : 4 * t.count ≤ 3 * t.capacity := hload
      omega
    have hcap : 0 < t.capacity := by omega
    obtain ⟨i0, hi0, hemp0⟩ := exists_empty_slot t hcnt hlt
    obtain ⟨d0, hd0, hwd0⟩ := walk_cover hcap (h % t.capacity) hi0
    unfold table_find_string
    rw [if_neg h0]
    refine tfs_loop_absent t.entries t.capacity chars h t.capacity (h % t.capacity)
      hd0 (Nat.mod_lt _ hcap) (by rw [hwd0]; exact hemp0) ?_
    intro j hj
    rintro ⟨k2, hk2, -, -, hk2chars⟩
    exact hca j hj k2 (mem_keyAt_toList.mpr hk2) hk2chars

/-- table_find_string succeeds (never diverges) on a table respecting the
load factor. -/
theorem tfs_total (t : Table) (hcnt : countOk t) (hload : loadOk t)
    (chars : List Nat) (h : Nat) :
    ∃ r, table_find_string t chars h = some r := by
  by_cases h0 : t.count = 0
  · unfold table_find_string
    rw [if_pos h0]
    exact ⟨none, rfl⟩
  · have hlt : t.count < t.capacity := by
      have hload' : 4 * t.count ≤ 3 * t.capacity := hload
      omega
    have hcap : 0 < t.capacity := by omega
    obtain ⟨i0, hi0, hemp0⟩ := exists_empty_slot t hcnt hlt
    obtain ⟨d0, hd0, hwd0⟩ := walk_cover hcap (h % t.capacity) hi0
    unfold table_find_string
    rw [if_neg h0]
    exact tfs_loop_total t.entries t.capacity chars h t.capacity (h % t.capacity)
      hd0 (Nat.mod_lt _ hcap) (by rw [hwd0]; exact hemp0)

/-! ### Specification of the interning entry points -/

/-- Two present keys with the same byte content are the same object. -/
theorem content_unique {t : Table}
    (huniq : uniqOids t)
    (hcu : ∀ i < t.capacity, ∀ j < t.capacity, i ≠ j →
      ∀ ki ∈ (keyAt t i).toList, ∀ kj ∈ (keyAt t j).toList, ki.chars ≠ kj.chars)
    {s s0 : ObjStr} (hs : keyPresent t s) (hs0 : keyPresent t s0)
    (hchars : s.chars = s0.chars) : s = s0 := by
  obtain ⟨i, hi, hki⟩ := hs
  obtain ⟨j, hj, hkj⟩ := hs0
  by_cases hij : i = j
  · rw [hij, hkj] at hki
    exact (Option.some.inj hki).symm
  · exact absurd hchars
      (hcu i hi j hj hij s (mem_keyAt_toList.mpr hki) s0 (mem_keyAt_toList.mpr hkj))

/-- The full behaviour of copy_string on a well-formed pool: it succeeds,
returns the unique canonical string with the requested bytes, preserves
the pool invariants, and repeating the call (with copy_string or
take_string) returns the same object and leaves the pool untouched. -/
theorem copy_string_spec (p : StrPool) (hwf : PoolWF p) (chars : List Nat) :
    ∃ s p', copy_string p chars = some (s, p') ∧
      s.chars = chars ∧
      PoolWF p' ∧
      keyPresent p'.table s ∧
      (∀ s0, keyPresent p.table s0 → s0.chars = chars → s = s0) ∧
      copy_string p' chars = some (s, p') ∧
      take_string p' chars = some (s, p') := by
  obtain ⟨⟨hcnt, hload, hfind, huniq⟩, hhash, hcu, hfresh⟩ := hwf
  obtain ⟨r, htfs⟩ := tfs_total p.table hcnt hload chars (hash_string chars)
  rcases r with _ | s
  · -- miss: a fresh string is allocated and inserted
    have hca : contentAbsent p.table chars := by
      intro i hi k0 hk0 hchars
      rw [mem_keyAt_toList] at hk0
      have := tfs_found_exact p.table hcnt hfind hhash hcu hi hk0 hchars
      rw [htfs] at this
      cases this
    have habs : oidAbsent p.table p.nextId := by
      intro j hj kj hkj h
      have := hfresh j hj kj hkj
      omega
    obtain ⟨isNew, t', hts, ⟨hcnt', hload', hfind', huniq'⟩, ⟨islot, hislot, hislotEq⟩,
      hisNew, hpres'⟩ :=
      table_set_spec p.table ⟨hcnt, hload, hfind, huniq⟩ ⟨p.nextId, chars, hash_string chars⟩
        Value.vnil (Or.inl habs)
    have hkeyAt' : keyAt t' islot = some ⟨p.nextId, chars, hash_string chars⟩ := by
      unfold keyAt
      rw [hislotEq]
    have hkp' : keyPresent t' ⟨p.nextId, chars, hash_string chars⟩ := ⟨islot, hislot, hkeyAt'⟩
    -- each key of the new pool is either an old key (different oid) or the new string
    have hcases : ∀ j < t'.capacity, ∀ kj ∈ (keyAt t' j).toList,
        (keyPresent p.table kj ∧ kj.oid ≠ p.nextId) ∨
          kj = ⟨p.nextId, chars, hash_string chars⟩ := by
      intro j hj kj hkj
      rw [mem_keyAt_toList] at hkj
      obtain ⟨vv, hvv⟩ := keyPresent_iff_exists_entry.mp ⟨j, hj, hkj⟩
      rw [hpres' kj vv] at hvv
      rcases hvv with ⟨h, hne⟩ | ⟨rfl, -⟩
      · obtain ⟨j2, hj2, hEq2⟩ := h
        refine Or.inl ⟨⟨j2, hj2, ?_⟩, hne⟩
        unfold keyAt
        rw [hEq2]
      · exact Or.inr rfl
    have hwf' : PoolWF ⟨t', p.nextId + 1⟩ := by
      refine ⟨⟨hcnt', hload', hfind', huniq'⟩, ?_, ?_, ?_⟩
      · intro j hj kj hkj
        rcases hcases j hj kj hkj with ⟨⟨j2, hj2, hk2⟩, -⟩ | rfl
        · exact hhash j2 hj2 kj (mem_keyAt_toList.mpr hk2)
        · rfl
      · intro i hi j hj hij ki hki kj hkj
        have huniq'' := huniq' i hi j hj hij ki hki kj hkj
        rcases hcases i hi ki hki with ⟨⟨i2, hi2, hki2⟩, hne1⟩ | rfl <;>
          rcases hcases j hj kj hkj with ⟨⟨j2, hj2, hkj2⟩, hne2⟩ | h2
        · -- both old keys
          by_cases hij2 : i2 = j2
          · rw [hij2, hkj2] at hki2
            exact absurd (Option.some.inj hki2) (by
              intro h
              exact huniq'' (by rw [h]))
          · exact hcu i2 hi2 j2 hj2 hij2 ki (mem_keyAt_toList.mpr hki2) kj
              (mem_keyAt_toList.mpr hkj2)
        · -- old vs new
          rw [h2]
          intro h
          exact hca i2 hi2 ki (mem_keyAt_toList.mpr hki2) h
        · -- new vs old
          intro h
          exact hca j2 hj2 kj (mem_keyAt_toList.mpr hkj2) h.symm
        · -- new vs new: impossible, the oids would clash
          rw [h2] at huniq''
          exact absurd rfl huniq''
      · intro j hj kj hkj
        show kj.oid < p.nextId + 1
        rcases hcases j hj kj hkj with ⟨⟨j2, hj2, hk2⟩, -⟩ | rfl
        · have := hfresh j2 hj2 kj (mem_keyAt_toList.mpr hk2)
          omega
        · show p.nextId < p.nextId + 1
          omega
    have hcopy1 : copy_string p chars =
        some (⟨p.nextId, chars, hash_string chars⟩, ⟨t', p.nextId + 1⟩) := by
      simp only [copy_string, htfs, allocate_string, hts]
      rfl
    have htfs' : table_find_string t' chars (hash_string chars) =
        some (some ⟨p.nextId, chars, hash_string chars⟩) := by
      obtain ⟨⟨hc', hl', hf', hu'⟩, hhash', hcu', -⟩ := hwf'
      exact tfs_found_exact t' hc' hf' hhash' hcu' hislot hkeyAt' rfl
    refine ⟨⟨p.nextId, chars, hash_string chars⟩, ⟨t', p.nextId + 1⟩, hcopy1, rfl, hwf',
      hkp', ?_, ?_, ?_⟩
    · intro s0 hs0 hchars0
      exact absurd hchars0 (by
        obtain ⟨j, hj, hkj⟩ := hs0
        exact hca j hj s0 (mem_keyAt_toList.mpr hkj))
    · simp only [copy_string, htfs']
    · simp only [take_string, htfs']
  · -- hit: the canonical string is returned and nothing changes
    have hshape := @tfs_loop_hit_shape p.table.entries p.table.capacity chars
      (hash_string chars) p.table.capacity
    have hchars : s.chars = chars ∧ s.hash = hash_string chars ∧
        ∃ i < p.table.capacity, (p.table.entries.getD i Entry.dfl).key = some s := by
      unfold table_find_string at htfs
      by_cases h0 : p.table.count = 0
      · rw [if_pos h0] at htfs
        cases htfs
      · rw [if_neg h0] at htfs
        have hcap : 0 < p.table.capacity := by
          have hload' : 4 * p.table.count ≤ 3 * p.table.capacity := hload
          omega
        exact hshape _ s (Nat.mod_lt _ hcap) htfs
    obtain ⟨hsc, hsh, i, hi, hki⟩ := hchars
    have hkp : keyPresent p.table s := ⟨i, hi, hki⟩
    have hcopy1 : copy_string p chars = some (s, p) := by
      simp only [copy_string, htfs]
    refine ⟨s, p, hcopy1, hsc, ⟨⟨hcnt, hload, hfind, huniq⟩, hhash, hcu, hfresh⟩, hkp, ?_,
      hcopy1, ?_⟩
    · intro s0 hs0 hchars0
      exact content_unique huniq hcu hkp hs0 (by rw [hsc, hchars0])
    · simp only [take_string, htfs]

/-- take_string performs exactly the same pool lookup and insertion as
copy_string (they differ only in buffer ownership, which has no model
effect). -/
theorem take_string_eq_copy (p : StrPool) (chars : List Nat) :
    take_string p chars = copy_string p chars := rfl

/-- C7: on a well-formed pool, copy_string and take_string with a given
byte content always succeed and return one and the same String object:
the result is the unique pool entry with that content (so any two calls,
by either entry point, return the same reference), a repeated call
returns the identical object and leaves the pool untouched, the pool
invariants are preserved, and the resulting pool holds no two Strings
with equal byte content. -/
theorem c7_interning_canonical (p : StrPool) (hwf : PoolWF p) (chars : List Nat) :
    ∃ s p', copy_string p chars = some (s, p') ∧
      take_string p chars = some (s, p') ∧
      s.chars = chars ∧
      PoolWF p' ∧
      copy_string p' chars = some (s, p') ∧
      take_string p' chars = some (s, p') ∧
      (∀ s0, keyPresent p.table s0 → s0.chars = chars → s = s0) ∧
      (∀ i < p'.table.capacity, ∀ j < p'.table.capacity, i ≠ j →
        ∀ ki ∈ (keyAt p'.table i).toList, ∀ kj ∈ (keyAt p'.table j).toList,
          ki.chars ≠ kj.chars) := by
  obtain ⟨s, p', h1, h2, h3, h4, h5, h6, h7⟩ := copy_string_spec p hwf chars
  exact ⟨s, p', h1, (take_string_eq_copy p chars).trans h1, h2, h3, h6, h7, h5,
    h3.2.2.1⟩

/-- Witness for C7 at a concrete input: interning "hi" into the empty
pool. -/
theorem c7_interning_canonical_witness :
    PoolWF ⟨init_table, 0⟩ ∧
    (∃ s p', copy_string ⟨init_table, 0⟩ [104, 105] = some (s, p') ∧
      take_string ⟨init_table, 0⟩ [104, 105] = some (s, p') ∧
      s.chars = [104, 105] ∧
      PoolWF p' ∧
      copy_string p' [104, 105] = some (s, p') ∧
      take_string p' [104, 105] = some (s, p') ∧
      (∀ s0, keyPresent (Table.mk 0 []) s0 → s0.chars = [104, 105] → s = s0) ∧
      (∀ i < p'.table.capacity, ∀ j < p'.table.capacity, i ≠ j →
        ∀ ki ∈ (keyAt p'.table i).toList, ∀ kj ∈ (keyAt p'.table j).toList,
          ki.chars ≠ kj.chars)) :=
  ⟨by decide, c7_interning_canonical ⟨init_table, 0⟩ (by decide) [104, 105]⟩

/-- C8 counterexample: assigning to an undefined global on a fresh
(empty) globals table raises the runtime error, but the table is NOT
left in its previous state: the tentative insert leaves a grown array,
an incremented count and a tombstone behind. -/
theorem c8_set_global_counterexample :
    ∃ r, op_set_global ⟨0, []⟩ ⟨5, [120], 3372475057⟩ (.vnum 1) = some r ∧
      r.1 = .intRuntimeError ∧ r.2 ≠ (⟨0, []⟩ : Table) ∧ r.2.count = 1 := by
  decide

/-- C8 (amended): OP_SET_GLOBAL with an undefined name raises a runtime
error, run() returns INTERPRET_RUNTIME_ERROR, and the name is left
unbound (the tentative insert is tombstoned) with every other binding
unchanged — though the concrete array (count, tombstone) differs from the
pre-call state; with a defined name, the binding is updated and no error
occurs. -/
theorem c8_set_global_amended (g : Table) (hwf : TableWF g) (name : ObjStr) (v : Value) :
    (oidAbsent g name.oid →
      ∃ g'', op_set_global g name v = some (.intRuntimeError, g'') ∧
        table_get g'' name = some none ∧
        (∀ k2, k2.oid ≠ name.oid → ∀ v2, (entryPresent g'' k2 v2 ↔ entryPresent g k2 v2)) ∧
        TableWF g'') ∧
    (∀ i < g.capacity, keyAt g i = some name →
      ∃ g', op_set_global g name v = some (.intOk, g') ∧
        table_get g' name = some (some v) ∧
        (∀ k2, k2.oid ≠ name.oid → ∀ v2, (entryPresent g' k2 v2 ↔ entryPresent g k2 v2)) ∧
        TableWF g') := by
  constructor
  · intro habs
    obtain ⟨isNew, t', hts, hwf', ⟨islot, hislot, hislotEq⟩, hisNew, hpres'⟩ :=
      table_set_spec g hwf name v (Or.inl habs)
    obtain rfl : isNew = true := hisNew.mpr habs
    have hkeyAt' : keyAt t' islot = some name := by
      unfold keyAt
      rw [hislotEq]
    obtain ⟨hdel, hwf'', hkey'', habs'', hpres''⟩ := table_del_present t' hwf' hislot hkeyAt'
    refine ⟨writeSlot t' islot ⟨none, .vbool true⟩ t'.count, ?_, ?_, ?_, hwf''⟩
    · simp only [op_set_global, hts, hdel, if_true]
    · exact table_get_absent _ hwf''.1 hwf''.2.1 habs''
    · intro k2 hne v2
      rw [hpres'' k2 v2, hpres' k2 v2]
      constructor
      · rintro ⟨(⟨h, -⟩ | ⟨rfl, -⟩), -⟩
        · exact h
        · exact absurd rfl hne
      · intro h
        exact ⟨Or.inl ⟨h, hne⟩, hne⟩
  · intro i hi hk
    have hnabs : ¬ oidAbsent g name.oid := by
      intro habs
      exact habs i hi name (mem_keyAt_toList.mpr hk) rfl
    obtain ⟨isNew, t', hts, hwf', ⟨islot, hislot, hislotEq⟩, hisNew, hpres'⟩ :=
      table_set_spec g hwf name v (Or.inr ⟨i, hi, hk⟩)
    obtain rfl : isNew = false := by
      rcases isNew with _ | _
      · rfl
      · exact absurd (hisNew.mp rfl) hnabs
    have hkeyAt' : keyAt t' islot = some name := by
      unfold keyAt
      rw [hislotEq]
    refine ⟨t', ?_, ?_, ?_, hwf'⟩
    · simp only [op_set_global, hts, Bool.false_eq_true, if_false]
    · have hget := table_get_present t' hwf' hislot hkeyAt'
      rw [hislotEq] at hget
      exact hget
    · intro k2 hne v2
      rw [hpres' k2 v2]
      constructor
      · rintro (⟨h, -⟩ | ⟨rfl, -⟩)
        · exact h
        · exact absurd rfl hne
      · intro h
        exact Or.inl ⟨h, hne⟩

/-- Witness for C8 (amended) at a concrete input: a table holding only
the binding x = 7, assigning to the defined x and to an undefined y. -/
theorem c8_set_global_amended_witness :
    TableWF ⟨1, ⟨some ⟨5, [120], 0⟩, .vnum 7⟩ :: List.replicate 7 Entry.dfl⟩ ∧
    ((oidAbsent ⟨1, ⟨some ⟨5, [120], 0⟩, .vnum 7⟩ :: List.replicate 7 Entry.dfl⟩ 9 →
      ∃ g'', op_set_global ⟨1, ⟨some ⟨5, [120], 0⟩, .vnum 7⟩ :: List.replicate 7 Entry.dfl⟩
          ⟨9, [121], 0⟩ (.vnum 2) = some (.intRuntimeError, g'') ∧
        table_get g'' ⟨9, [121], 0⟩ = some none ∧
        (∀ k2, k2.oid ≠ 9 → ∀ v2,
          (entryPresent g'' k2 v2 ↔
            entryPresent ⟨1, ⟨some ⟨5, [120], 0⟩, .vnum 7⟩ :: List.replicate 7 Entry.dfl⟩ k2 v2)) ∧
        TableWF g'') ∧
    (∀ i < Table.capacity ⟨1, ⟨some ⟨5, [120], 0⟩, .vnum 7⟩ :: List.replicate 7 Entry.dfl⟩,
      keyAt ⟨1, ⟨some ⟨5, [120], 0⟩, .vnum 7⟩ :: List.replicate 7 Entry.dfl⟩ i =
        some ⟨9, [121], 0⟩ →
      ∃ g', op_set_global ⟨1, ⟨some ⟨5, [120], 0⟩, .vnum 7⟩ :: List.replicate 7 Entry.dfl⟩
          ⟨9, [121], 0⟩ (.vnum 2) = some (.intOk, g') ∧
        table_get g' ⟨9, [121], 0⟩ = some (some (.vnum 2)) ∧
        (∀ k2, k2.oid ≠ 9 → ∀ v2,
          (entryPresent g' k2 v2 ↔
            entryPresent ⟨1, ⟨some ⟨5, [120], 0⟩, .vnum 7⟩ :: List.replicate 7 Entry.dfl⟩ k2 v2)) ∧
        TableWF g')) :=
  ⟨by decide,
    c8_set_global_amended ⟨1, ⟨some ⟨5, [120], 0⟩, .vnum 7⟩ :: List.replicate 7 Entry.dfl⟩
      (by decide) ⟨9, [121], 0⟩ (.vnum 2)⟩

/-- C9: table_del on a present key clears the entry's key and stores
boolean true (a tombstone) without changing count; table_set on a new
key whose probe lands on a tombstone slot reuses it without incrementing
count; and find_entry probes past tombstones, so a present key is found
at its slot even when tombstones precede it in its probe chain. -/
theorem c9_tombstones (t : Table) (hwf : TableWF t) (key key2 : ObjStr) (v : Value)
    (i j : Nat) (hi : i < t.capacity) (hk : keyAt t i = some key) :
    table_del t key = some (true, writeSlot t i ⟨none, .vbool true⟩ t.count) ∧
    (writeSlot t i ⟨none, .vbool true⟩ t.count).entryAt i = ⟨none, .vbool true⟩ ∧
    (writeSlot t i ⟨none, .vbool true⟩ t.count).count = t.count ∧
    (loadExceeded t = false → find_entry t.entries t.capacity key2 = some j →
      keyAt t j = none → (t.entryAt j).value ≠ .vnil →
      table_set t key2 v = some (true, writeSlot t j ⟨some key2, v⟩ t.count)) ∧
    find_entry t.entries t.capacity key = some i := by
  obtain ⟨hdel, -, -, -, -⟩ := table_del_present t hwf hi hk
  refine ⟨hdel, writeSlot_entryAt_self hi, rfl, ?_, find_entry_present t hwf hi hk⟩
  intro hnl hfe hkj hv
  have hset := table_set_eq t t key2 v (by rw [hnl]; rfl) hfe
  rw [hkj] at hset
  have hcif : (if (none : Option ObjStr).isNone && isNil (t.entryAt j).value
      then t.count + 1 else t.count) = t.count := by
    rw [isNil_false_iff.mpr hv]
    rfl
  rw [hcif] at hset
  rw [hset]
  rfl

/-- Witness for C9 at a concrete input: a table whose probe chain for
hash 0 is [tombstone at slot 0, key at slot 1]; the deleted key, the
tombstone-reusing insert and the probe-past-tombstone lookup are all
exercised. -/
theorem c9_tombstones_witness :
    TableWF ⟨2, ⟨none, .vbool true⟩ :: ⟨some ⟨1, [97], 0⟩, .vnum 7⟩ ::
        List.replicate 6 Entry.dfl⟩ ∧
    keyAt ⟨2, ⟨none, .vbool true⟩ :: ⟨some ⟨1, [97], 0⟩, .vnum 7⟩ ::
        List.replicate 6 Entry.dfl⟩ 1 = some ⟨1, [97], 0⟩ ∧
    (table_del ⟨2, ⟨none, .vbool true⟩ :: ⟨some ⟨1, [97], 0⟩, .vnum 7⟩ ::
        List.replicate 6 Entry.dfl⟩ ⟨1, [97], 0⟩ =
      some (true, writeSlot ⟨2, ⟨none, .vbool true⟩ :: ⟨some ⟨1, [97], 0⟩, .vnum 7⟩ ::
        List.replicate 6 Entry.dfl⟩ 1 ⟨none, .vbool true⟩ 2) ∧
    (writeSlot ⟨2, ⟨none, .vbool true⟩ :: ⟨some ⟨1, [97], 0⟩, .vnum 7⟩ ::
        List.replicate 6 Entry.dfl⟩ 1 ⟨none, .vbool true⟩ 2).entryAt 1 =
          ⟨none, .vbool true⟩ ∧
    (writeSlot ⟨2, ⟨none, .vbool true⟩ :: ⟨some ⟨1, [97], 0⟩, .vnum 7⟩ ::
        List.replicate 6 Entry.dfl⟩ 1 ⟨none, .vbool true⟩ 2).count = 2 ∧
    (loadExceeded ⟨2, ⟨none, .vbool true⟩ :: ⟨some ⟨1, [97], 0⟩, .vnum 7⟩ ::
        List.replicate 6 Entry.dfl⟩ = false →
      find_entry (⟨none, .vbool true⟩ :: ⟨some ⟨1, [97], 0⟩, .vnum 7⟩ ::
        List.replicate 6 Entry.dfl) 8 ⟨2, [98], 0⟩ = some 0 →
      keyAt ⟨2, ⟨none, .vbool true⟩ :: ⟨some ⟨1, [97], 0⟩, .vnum 7⟩ ::
        List.replicate 6 Entry.dfl⟩ 0 = none →
      (Table.entryAt ⟨2, ⟨none, .vbool true⟩ :: ⟨some ⟨1, [97], 0⟩, .vnum 7⟩ ::
        List.replicate 6 Entry.dfl⟩ 0).value ≠ .vnil →
      table_set ⟨2, ⟨none, .vbool true⟩ :: ⟨some ⟨1, [97], 0⟩, .vnum 7⟩ ::
        List.replicate 6 Entry.dfl⟩ ⟨2, [98], 0⟩ (.vnum 9) =
        some (true, writeSlot ⟨2, ⟨none, .vbool true⟩ :: ⟨some ⟨1, [97], 0⟩, .vnum 7⟩ ::
          List.replicate 6 Entry.dfl⟩ 0 ⟨some ⟨2, [98], 0⟩, .vnum 9⟩ 2)) ∧
    find_entry (⟨none, .vbool true⟩ :: ⟨some ⟨1, [97], 0⟩, .vnum 7⟩ ::
        List.replicate 6 Entry.dfl) 8 ⟨1, [97], 0⟩ = some 1) :=
  ⟨by decide, by decide,
    c9_tombstones ⟨2, ⟨none, .vbool true⟩ :: ⟨some ⟨1, [97], 0⟩, .vnum 7⟩ ::
        List.replicate 6 Entry.dfl⟩ (by decide) ⟨1, [97], 0⟩ ⟨2, [98], 0⟩ (.vnum 9) 1 0
      (by decide) (by decide)⟩

/-! ### The collector: sweep and the weak string prune -/

theorem oid_unique {t : Table} (huniq : uniqOids t) {s s0 : ObjStr}
    (hs : keyPresent t s) (hs0 : keyPresent t s0) (h : s.oid = s0.oid) : s = s0 := by
  obtain ⟨i, hi, hki⟩ := hs
  obtain ⟨j, hj, hkj⟩ := hs0
  by_cases hij : i = j
  · rw [hij, hkj] at hki
    exact (Option.some.inj hki).symm
  · exact absurd h
      (huniq i hi j hj hij s (mem_keyAt_toList.mpr hki) s0 (mem_keyAt_toList.mpr hkj))

theorem lt_capacity_of_keyAt {t : Table} {i : Nat} {k : ObjStr}
    (hk : keyAt t i = some k) : i < t.capacity := by
  by_contra h
  unfold keyAt Table.entryAt at hk
  rw [List.getD_eq_getElem?_getD, List.getElem?_eq_none (by
    unfold Table.capacity at h
    omega)] at hk
  cases hk

theorem sweep_spec : ∀ (heap : List GCObj) (extra : Nat),
    sweep heap (totalSize heap + extra) =
      ((heap.filter (·.marked)).map (fun o => { o with marked := false }),
        totalSize (heap.filter (·.marked)) + extra) := by
  intro heap
  induction heap with
  | nil =>
    intro extra
    rfl
  | cons o rest ih =>
    intro extra
    by_cases hm : o.marked
    · have harg : totalSize (o :: rest) + extra = totalSize rest + (o.size + extra) := by
        simp [totalSize]
        omega
      rw [sweep, if_pos hm, harg, ih (o.size + extra)]
      have hfil : (o :: rest).filter (·.marked) = o :: rest.filter (·.marked) := by
        simp [List.filter_cons, hm]
      rw [hfil]
      have hts : totalSize (o :: rest.filter (·.marked)) =
          o.size + totalSize (rest.filter (·.marked)) := by
        simp [totalSize]
      rw [List.map_cons, hts]
      refine congrArg _ ?_
      omega
    · have harg : totalSize (o :: rest) + extra - o.size = totalSize rest + extra := by
        simp [totalSize]
        omega
      rw [sweep, if_neg hm, harg, ih extra]
      have hfil : (o :: rest).filter (·.marked) = rest.filter (·.marked) := by
        simp [List.filter_cons, hm]
      rw [hfil]

theorem totalSize_map_clear (l : List GCObj) :
    totalSize (l.map (fun o => { o with marked := false })) = totalSize l := by
  simp [totalSize, List.map_map]
  rfl

theorem remove_white_fold (marked : ObjStr → Bool) :
    ∀ (L : List Nat) (T : Table), TableWF T →
      ∃ T', L.foldlM (fun t i =>
          match keyAt t i with
          | some k => if marked k then some t else (table_del t k).map (·.2)
          | none => some t) T = some T' ∧
        TableWF T' ∧ T'.capacity = T.capacity ∧
        (∀ k v, entryPresent T' k v → entryPresent T k v) ∧
        (∀ k v, entryPresent T k v → marked k = true → entryPresent T' k v) ∧
        (∀ i, keyAt T i = none → keyAt T' i = none) ∧
        (∀ i k, keyAt T i = some k → (keyAt T' i = some k ∨ keyAt T' i = none)) ∧
        (∀ i ∈ L, ∀ k, keyAt T' i = some k → marked k = true) := by
  intro L
  induction L with
  | nil =>
    intro T hwf
    exact ⟨T, rfl, hwf, rfl, fun _ _ h => h, fun _ _ h _ => h, fun _ h => h,
      fun _ _ h => Or.inl h, by simp⟩
  | cons i rest ih =>
    intro T hwf
    rw [List.foldlM_cons]
    rcases hki : keyAt T i with _ | k
    · obtain ⟨T', hfold, c1, c2, c3, c4, c5, c6, c7⟩ := ih T hwf
      refine ⟨T', by simpa using hfold, c1, c2, c3, c4, c5, c6, ?_⟩
      intro i2 hi2 k2 hk2
      rcases List.mem_cons.mp hi2 with rfl | hmem
      · have := c5 i2 hki
        rw [this] at hk2
        cases hk2
      · exact c7 i2 hmem k2 hk2
    · by_cases hmk : marked k = true
      · obtain ⟨T', hfold, c1, c2, c3, c4, c5, c6, c7⟩ := ih T hwf
        refine ⟨T', by simpa [hmk] using hfold, c1, c2, c3, c4, c5, c6, ?_⟩
        intro i2 hi2 k2 hk2
        rcases List.mem_cons.mp hi2 with rfl | hmem
        · rcases c6 i2 k hki with h | h
          · rw [h] at hk2
            obtain rfl : k2 = k := (Option.some.inj hk2).symm
            exact hmk
          · rw [h] at hk2
            cases hk2
        · exact c7 i2 hmem k2 hk2
      · have hic : i < T.capacity := lt_capacity_of_keyAt hki
        obtain ⟨hdel, hwf1, hkey1, habs1, hpres1⟩ := table_del_present T hwf hic hki
        obtain ⟨T', hfold, c1, c2, c3, c4, c5, c6, c7⟩ :=
          ih (writeSlot T i ⟨none, .vbool true⟩ T.count) hwf1
        have hkeyNe : ∀ j, j ≠ i →
            keyAt (writeSlot T i (⟨none, .vbool true⟩ : Entry) T.count) j = keyAt T j := by
          intro j hj
          exact writeSlot_keyAt_ne (fun h => hj h.symm)
        have hoidne : ∀ k2 v2, entryPresent T k2 v2 → marked k2 = true → k2.oid ≠ k.oid := by
          intro k2 v2 hp hm2 hoid
          have hk2p : keyPresent T k2 := by
            obtain ⟨j, hj, hEq⟩ := hp
            refine ⟨j, hj, ?_⟩
            unfold keyAt
            rw [hEq]
          obtain rfl : k2 = k := oid_unique hwf.2.2.2 hk2p ⟨i, hic, hki⟩ hoid
          rw [hm2] at hmk
          exact hmk rfl
        refine ⟨T', ?_, c1, c2.trans writeSlot_capacity, ?_, ?_, ?_, ?_, ?_⟩
        · simpa [hmk, hdel] using hfold
        · intro k2 v2 hp
          exact ((hpres1 k2 v2).mp (c3 k2 v2 hp)).1
        · intro k2 v2 hp hm2
          exact c4 k2 v2 ((hpres1 k2 v2).mpr ⟨hp, hoidne k2 v2 hp hm2⟩) hm2
        · intro i2 hi2
          by_cases hii : i2 = i
          · rw [hii]
            exact c5 i hkey1
          · exact c5 i2 (by rw [hkeyNe i2 hii]; exact hi2)
        · intro i2 k2 hk2
          by_cases hii : i2 = i
          · rw [hii]
            exact Or.inr (c5 i hkey1)
          · exact c6 i2 k2 (by rw [hkeyNe i2 hii]; exact hk2)
        · intro i2 hi2 k2 hk2
          rcases List.mem_cons.mp hi2 with rfl | hmem
          · have h0 := c5 i2 hkey1
            rw [h0] at hk2
            cases hk2
          · exact c7 i2 hmem k2 hk2

/-- table_remove_white deletes exactly the entries whose key is unmarked:
the result is well-formed, its keys are all marked, and its bindings are
precisely the marked bindings of the input. -/
theorem table_remove_white_spec (t : Table) (hwf : TableWF t) (marked : ObjStr → Bool) :
    ∃ t', table_remove_white t marked = some t' ∧ TableWF t' ∧
      t'.capacity = t.capacity ∧
      (∀ i < t'.capacity, ∀ k ∈ (keyAt t' i).toList, marked k = true) ∧
      (∀ k2 v2, entryPresent t' k2 v2 ↔ (entryPresent t k2 v2 ∧ marked k2 = true)) := by
  obtain ⟨t', hfold, c1, c2, c3, c4, c5, c6, c7⟩ :=
    remove_white_fold marked (List.range t.capacity) t hwf
  refine ⟨t', hfold, c1, c2, ?_, ?_⟩
  · intro i hi k hk
    rw [mem_keyAt_toList] at hk
    exact c7 i (List.mem_range.mpr (by omega)) k hk
  · intro k2 v2
    constructor
    · intro hp
      refine ⟨c3 k2 v2 hp, ?_⟩
      obtain ⟨i, hi, hEq⟩ := hp
      have hki : keyAt t' i = some k2 := by
        unfold keyAt
        rw [hEq]
      exact c7 i (List.mem_range.mpr (by omega)) k2 hki
    · rintro ⟨hp, hm⟩
      exact c4 k2 v2 hp hm

/-- C10: after a collection (modelled from the point where the mark phase
has finished): the weak interned-string prune runs before the sweep and
leaves no entry with an unmarked key while keeping every marked binding;
the sweep leaves exactly the previously-marked objects, with their mark
bits cleared; bytes_allocated ends up equal to the aggregate payload of
the surviving objects (given that it equalled the aggregate payload of
all objects before); and next_gc becomes twice bytes_allocated. -/
theorem c10_collect_garbage (heap : List GCObj) (strings : Table) (hwf : TableWF strings)
    (markedStr : ObjStr → Bool) (bytes : Nat) (hb : bytes = totalSize heap) :
    ∃ heap' strings' bytes' nextGc,
      collect_garbage_tail heap strings markedStr bytes =
        some (heap', strings', bytes', nextGc) ∧
      heap' = (heap.filter (·.marked)).map (fun o => { o with marked := false }) ∧
      (∀ o ∈ heap', o.marked = false) ∧
      bytes' = totalSize heap' ∧
      (∀ i < strings'.capacity, ∀ k ∈ (keyAt strings' i).toList, markedStr k = true) ∧
      (∀ k2 v2, entryPresent strings' k2 v2 ↔
        (entryPresent strings k2 v2 ∧ markedStr k2 = true)) ∧
      nextGc = bytes' * 2 := by
  obtain ⟨strings', hrw, -, -, hmarked, hpres⟩ := table_remove_white_spec strings hwf markedStr
  have hsweep := sweep_spec heap 0
  rw [Nat.add_zero] at hsweep
  refine ⟨(heap.filter (·.marked)).map (fun o => { o with marked := false }), strings',
    totalSize (heap.filter (·.marked)), totalSize (heap.filter (·.marked)) * 2,
    ?_, rfl, ?_, ?_, hmarked, hpres, rfl⟩
  · unfold collect_garbage_tail
    rw [hrw, hb]
    rw [show totalSize (heap.filter (·.marked)) + 0 = totalSize (heap.filter (·.marked))
      from rfl] at hsweep
    rw [hsweep]
  · intro o ho
    obtain ⟨o0, -, rfl⟩ := List.mem_map.mp ho
    rfl
  · rw [totalSize_map_clear]

/-- Witness for C10 at a concrete input: a two-object heap with one
marked and one unmarked object, and a one-string table whose key is
unmarked (ids below 10 are unmarked, others marked). -/
theorem c10_collect_garbage_witness :
    TableWF ⟨1, ⟨some ⟨5, [120], 0⟩, .vnil⟩ :: List.replicate 7 Entry.dfl⟩ ∧
    (16 : Nat) = totalSize [GCObj.mk 0 true 10, GCObj.mk 1 false 6] ∧
    (∃ heap' strings' bytes' nextGc,
      collect_garbage_tail [GCObj.mk 0 true 10, GCObj.mk 1 false 6]
          ⟨1, ⟨some ⟨5, [120], 0⟩, .vnil⟩ :: List.replicate 7 Entry.dfl⟩
          (fun k => decide (10 ≤ k.oid)) 16 =
        some (heap', strings', bytes', nextGc) ∧
      heap' = ([GCObj.mk 0 true 10, GCObj.mk 1 false 6].filter (·.marked)).map
        (fun o => { o with marked := false }) ∧
      (∀ o ∈ heap', o.marked = false) ∧
      bytes' = totalSize heap' ∧
      (∀ i < strings'.capacity, ∀ k ∈ (keyAt strings' i).toList,
        (fun (k : ObjStr) => decide (10 ≤ k.oid)) k = true) ∧
      (∀ k2 v2, entryPresent strings' k2 v2 ↔
        (entryPresent ⟨1, ⟨some ⟨5, [120], 0⟩, .vnil⟩ :: List.replicate 7 Entry.dfl⟩ k2 v2 ∧
          (fun (k : ObjStr) => decide (10 ≤ k.oid)) k2 = true)) ∧
      nextGc = bytes' * 2) :=
  ⟨by decide, by decide,
    c10_collect_garbage [GCObj.mk 0 true 10, GCObj.mk 1 false 6]
      ⟨1, ⟨some ⟨5, [120], 0⟩, .vnil⟩ :: List.replicate 7 Entry.dfl⟩ (by decide)
      (fun k => decide (10 ≤ k.oid)) 16 (by decide)⟩

/-! ### C2 and C3: interpret()'s startup and the class-call arity error -/

/-- C2: interpret() is claimed to push the compiled function, replace it
by its closure and call it, the stack never dipping below its base; in
the source the push is commented out while its matching stack_pop
survives, so the pop underflows the empty stack and the closure and the
base frame's slots land one slot below the stack array. -/
theorem c2_interpret_underflow :
    ∃ st', interpret_setup scriptOnlyVM 0 = some st' ∧
      st'.minTop = -1 ∧
      st'.frames = [⟨1, 0, -1⟩] ∧
      st'.mem (-1) = .vobj 1 ∧
      st'.top = 0 ∧
      st'.errors = 0 := by
  refine ⟨_, rfl, ?_, ?_, ?_, ?_, ?_⟩ <;> decide

/-- C3: calling a class that has no init method with a nonzero argument
count is claimed to raise the arity runtime error and unwind with
INTERPRET_RUNTIME_ERROR; in the source the OBJECT_CLASS arm of call_value
falls through to return true after the runtime_error (the return false is
missing), so OP_CALL reports continue on a reset VM with zero frames. -/
theorem c3_class_arity_not_unwound :
    ∃ st', op_call classCallVM 1 = some (.cont st') ∧
      st'.errors = 1 ∧ st'.frames = [] ∧ st'.top = 0 := by
  refine ⟨_, rfl, ?_, ?_, ?_⟩ <;> decide

/-! ### The open-upvalue list: capture and close (vm.c) -/

theorem capture_list_nil {lcl : Int} {nid : Nat} :
    capture_list lcl nid [] = (nid, [⟨nid, lcl⟩], true) := by
  rw [capture_list]

theorem capture_list_cons_lt {lcl : Int} {nid : Nat} {v : OpenUpv} {rest : List OpenUpv}
    (h : lcl < v.loc) :
    capture_list lcl nid (v :: rest) =
      ((capture_list lcl nid rest).1, v :: (capture_list lcl nid rest).2.1,
        (capture_list lcl nid rest).2.2) := by
  rw [capture_list, if_pos h]

theorem capture_list_cons_eq {lcl : Int} {nid : Nat} {v : OpenUpv} {rest : List OpenUpv}
    (h1 : ¬ lcl < v.loc) (h2 : v.loc = lcl) :
    capture_list lcl nid (v :: rest) = (v.uvid, v :: rest, false) := by
  rw [capture_list, if_neg h1, if_pos h2]

theorem capture_list_cons_gt {lcl : Int} {nid : Nat} {v : OpenUpv} {rest : List OpenUpv}
    (h1 : ¬ lcl < v.loc) (h2 : ¬ v.loc = lcl) :
    capture_list lcl nid (v :: rest) = (nid, ⟨nid, lcl⟩ :: v :: rest, true) := by
  rw [capture_list, if_neg h1, if_neg h2]

/-- A slot that already has an open upvalue is found by the walk, and the
list comes back unchanged with no allocation. -/
theorem capture_list_mem_eq (lcl : Int) (nid : Nat) :
    ∀ (l : List OpenUpv), upvSorted l → ∀ u ∈ l, u.loc = lcl →
      capture_list lcl nid l = (u.uvid, l, false)
  | [], _, u, hu, _ => absurd hu (List.not_mem_nil u)
  | v :: rest, hsort, u, hu, hloc => by
    rcases List.pairwise_cons.mp hsort with ⟨hhead, htail⟩
    rcases List.mem_cons.mp hu with rfl | hmem
    · rw [capture_list_cons_eq (by rw [hloc]; exact lt_irrefl lcl) hloc]
    · have hv : lcl < v.loc := by rw [← hloc]; exact hhead u hmem
      rw [capture_list_cons_lt hv, capture_list_mem_eq lcl nid rest htail u hmem hloc]

/-- Everything in the list after a capture walk was there before or is
the freshly linked upvalue. -/
theorem capture_list_result_mem (lcl : Int) (nid : Nat) :
    ∀ (l : List OpenUpv), ∀ x ∈ (capture_list lcl nid l).2.1, x ∈ l ∨ x = ⟨nid, lcl⟩
  | [], x, hx => by
    rw [capture_list_nil] at hx
    right
    simpa using hx
  | v :: rest, x, hx => by
    by_cases h1 : lcl < v.loc
    · rw [capture_list_cons_lt h1] at hx
      rcases List.mem_cons.mp hx with rfl | hx'
      · exact Or.inl (List.mem_cons_self _ _)
      · rcases capture_list_result_mem lcl nid rest x hx' with h | h
        · exact Or.inl (List.mem_cons_of_mem _ h)
        · exact Or.inr h
    · by_cases h2 : v.loc = lcl
      · rw [capture_list_cons_eq h1 h2] at hx
        exact Or.inl hx
      · rw [capture_list_cons_gt h1 h2] at hx
        rcases List.mem_cons.mp hx with rfl | hx'
        · exact Or.inr rfl
        · exact Or.inl hx'

/-- The capture walk preserves the strictly-descending-location order. -/
theorem capture_list_sorted (lcl : Int) (nid : Nat) :
    ∀ (l : List OpenUpv), upvSorted l → upvSorted (capture_list lcl nid l).2.1
  | [], _ => by
    rw [capture_list_nil]
    exact List.pairwise_singleton _ _
  | v :: rest, hsort => by
    rcases List.pairwise_cons.mp hsort with ⟨hhead, htail⟩
    by_cases h1 : lcl < v.loc
    · rw [capture_list_cons_lt h1]
      refine List.pairwise_cons.mpr ⟨?_, capture_list_sorted lcl nid rest htail⟩
      intro b hb
      rcases capture_list_result_mem lcl nid rest b hb with h | h
      · exact hhead b h
      · rw [h]; exact h1
    · by_cases h2 : v.loc = lcl
      · rw [capture_list_cons_eq h1 h2]
        exact hsort
      · rw [capture_list_cons_gt h1 h2]
        have hv : v.loc < lcl := by omega
        refine List.pairwise_cons.mpr ⟨?_, hsort⟩
        intro b hb
        rcases List.mem_cons.mp hb with rfl | hb'
        · exact hv
        · exact lt_trans (hhead b hb') hv

/-- Strictly descending locations are pairwise distinct: at most one open
upvalue per stack slot. -/
theorem upvSorted_locs_nodup (l : List OpenUpv) (hsort : upvSorted l) :
    (l.map (·.loc)).Nodup :=
  List.Pairwise.map _ (fun _ _ h => ne_of_gt h) hsort

theorem close_list_nil {mem : Int → Value} {last : Int} :
    close_list mem last [] = ([], []) := by
  rw [close_list]

theorem close_list_cons_ge {mem : Int → Value} {last : Int} {v : OpenUpv}
    {rest : List OpenUpv} (h : last ≤ v.loc) :
    close_list mem last (v :: rest) =
      ((close_list mem last rest).1, (v.uvid, mem v.loc) :: (close_list mem last rest).2) := by
  rw [close_list, if_pos h]

theorem close_list_cons_lt {mem : Int → Value} {last : Int} {v : OpenUpv}
    {rest : List OpenUpv} (h : ¬ last ≤ v.loc) :
    close_list mem last (v :: rest) = (v :: rest, []) := by
  rw [close_list, if_neg h]

/-- On a sorted list the close walk leaves exactly the upvalues strictly
below last open. -/
theorem close_list_fst (mem : Int → Value) (last : Int) :
    ∀ (l : List OpenUpv), upvSorted l →
      (close_list mem last l).1 = l.filter (fun u => decide (u.loc < last))
  | [], _ => by rw [close_list_nil]; rfl
  | v :: rest, hsort => by
    rcases List.pairwise_cons.mp hsort with ⟨hhead, htail⟩
    by_cases h1 : last ≤ v.loc
    · rw [close_list_cons_ge h1, close_list_fst mem last rest htail,
        List.filter_cons_of_neg (by simp; omega)]
    · have hlt : v.loc < last := by omega
      rw [close_list_cons_lt h1, List.filter_cons_of_pos (by simpa using hlt),
        List.filter_eq_self.mpr (fun a ha => by
          simpa using lt_trans (hhead a ha) hlt)]

/-- The (id, closed value) pairs recorded by the close walk are exactly
the head run of locations at or above last. -/
theorem close_list_snd (mem : Int → Value) (last : Int) :
    ∀ (l : List OpenUpv),
      (close_list mem last l).2 =
        (l.takeWhile (fun u => decide (last ≤ u.loc))).map (fun u => (u.uvid, mem u.loc))
  | [] => by rw [close_list_nil]; rfl
  | v :: rest => by
    by_cases h1 : last ≤ v.loc
    · rw [close_list_cons_ge h1, close_list_snd mem last rest,
        List.takeWhile_cons_of_pos (by simpa using h1)]
      rfl
    · rw [close_list_cons_lt h1, List.takeWhile_cons_of_neg (by simpa using h1)]
      rfl

/-- A member at or above last of a sorted list survives takeWhile. -/
theorem mem_takeWhile_of_sorted (last : Int) :
    ∀ (l : List OpenUpv), upvSorted l → ∀ u ∈ l, last ≤ u.loc →
      u ∈ l.takeWhile (fun x => decide (last ≤ x.loc))
  | [], _, u, hu, _ => absurd hu (List.not_mem_nil u)
  | v :: rest, hsort, u, hu, hle => by
    rcases List.pairwise_cons.mp hsort with ⟨hhead, htail⟩
    have hv : last ≤ v.loc := by
      rcases List.mem_cons.mp hu with rfl | hmem
      · exact hle
      · exact le_of_lt (lt_of_le_of_lt hle (hhead u hmem))
    rw [List.takeWhile_cons_of_pos (by simpa using hv)]
    rcases List.mem_cons.mp hu with rfl | hmem
    · exact List.mem_cons_self _ _
    · exact List.mem_cons_of_mem _ (mem_takeWhile_of_sorted last rest htail u hmem hle)

/-- A key not written by the closed-pairs fold keeps its old storage. -/
theorem upd_fold_not_mem :
    ∀ (ps : List (Nat × Value)) (m : Nat → Option Value) (k : Nat),
      k ∉ ps.map Prod.fst →
      ps.foldl (fun m p j => if j = p.1 then some p.2 else m j) m k = m k
  | [], _, _, _ => rfl
  | p :: ps, m, k, h => by
    simp only [List.map_cons, List.mem_cons, not_or] at h
    rw [List.foldl_cons, upd_fold_not_mem ps _ k h.2]
    exact if_neg h.1

/-- A key written once by the closed-pairs fold reads back its value. -/
theorem upd_fold_mem :
    ∀ (ps : List (Nat × Value)) (m : Nat → Option Value) (k : Nat) (v : Value),
      (k, v) ∈ ps → (ps.map Prod.fst).Nodup →
      ps.foldl (fun m p j => if j = p.1 then some p.2 else m j) m k = some v
  | [], _, _, _, hmem, _ => absurd hmem (List.not_mem_nil _)
  | p :: ps, m, k, v, hmem, hnd => by
    rw [List.foldl_cons]
    rcases List.mem_cons.mp hmem with heq | hmem'
    · have hk : p.1 = k := by rw [← heq]
      have hv : p.2 = v := by rw [← heq]
      have hnotin : k ∉ ps.map Prod.fst := by
        rw [← hk]
        exact (List.nodup_cons.mp (by simpa using hnd)).1
      rw [upd_fold_not_mem ps _ k hnotin]
      simp [hk, hv]
    · exact upd_fold_mem ps _ k v hmem' (List.nodup_cons.mp (by simpa using hnd)).2

/-- After close_upvalues, each closed upvalue's storage holds the value
its slot held at the close. -/
theorem close_upvalues_lookup (st : VMSt) (last : Int)
    (hsort : upvSorted st.openUpvalues)
    (hnodup : (st.openUpvalues.map (·.uvid)).Nodup) :
    ∀ u ∈ st.openUpvalues, last ≤ u.loc →
      (close_upvalues st last).closedVals u.uvid = some (st.mem u.loc) := by
  intro u hu hle
  have hpairs := close_list_snd st.mem last st.openUpvalues
  have hmem_pairs : (u.uvid, st.mem u.loc) ∈ (close_list st.mem last st.openUpvalues).2 := by
    rw [hpairs]
    exact List.mem_map_of_mem _ (mem_takeWhile_of_sorted last st.openUpvalues hsort u hu hle)
  have hnd_pairs : ((close_list st.mem last st.openUpvalues).2.map Prod.fst).Nodup := by
    rw [hpairs, List.map_map]
    have hsub : ((st.openUpvalues.takeWhile (fun x => decide (last ≤ x.loc))).map
        (fun u : OpenUpv => u.uvid)).Sublist (st.openUpvalues.map (fun u : OpenUpv => u.uvid)) :=
      (List.takeWhile_sublist _).map _
    exact List.Nodup.sublist hsub hnodup
  have h := upd_fold_mem (close_list st.mem last st.openUpvalues).2 st.closedVals
    u.uvid (st.mem u.loc) hmem_pairs hnd_pairs
  simpa [close_upvalues] using h

/-- C5: the open-upvalue list is sorted by strictly descending stack
location, hence holds at most one upvalue per slot; capture_upvalue on a
slot that already has an open upvalue returns that upvalue and leaves the
VM unchanged (all capturing closures alias it); the sort order is
preserved by capture; and close_upvalues removes exactly the upvalues at
or above the close point, each closed one's storage holding the value its
slot held at that moment. -/
theorem c5_open_upvalues (st : VMSt) (lcl last : Int)
    (hsort : upvSorted st.openUpvalues)
    (hnodup : (st.openUpvalues.map (·.uvid)).Nodup) :
    (st.openUpvalues.map (·.loc)).Nodup ∧
    (∀ u ∈ st.openUpvalues, u.loc = lcl → capture_upvalue st lcl = (u.uvid, st)) ∧
    upvSorted (capture_upvalue st lcl).2.openUpvalues ∧
    (close_upvalues st last).openUpvalues
      = st.openUpvalues.filter (fun u => decide (u.loc < last)) ∧
    (∀ u ∈ st.openUpvalues, last ≤ u.loc →
      (close_upvalues st last).closedVals u.uvid = some (st.mem u.loc)) := by
  refine ⟨upvSorted_locs_nodup _ hsort, ?_, ?_, ?_,
    close_upvalues_lookup st last hsort hnodup⟩
  · intro u hu hloc
    have h := capture_list_mem_eq lcl st.nextUv st.openUpvalues hsort u hu hloc
    simp only [capture_upvalue, h]
    rfl
  · exact capture_list_sorted lcl st.nextUv st.openUpvalues hsort
  · have h := close_list_fst st.mem last st.openUpvalues hsort
    simpa [close_upvalues] using h

theorem c5_open_upvalues_witness :
    upvSorted upvVM.openUpvalues ∧ (upvVM.openUpvalues.map (·.uvid)).Nodup ∧
    ((upvVM.openUpvalues.map (·.loc)).Nodup ∧
      (∀ u ∈ upvVM.openUpvalues, u.loc = 2 → capture_upvalue upvVM 2 = (u.uvid, upvVM)) ∧
      upvSorted (capture_upvalue upvVM 2).2.openUpvalues ∧
      (close_upvalues upvVM 2).openUpvalues
        = upvVM.openUpvalues.filter (fun u => decide (u.loc < 2)) ∧
      (∀ u ∈ upvVM.openUpvalues, 2 ≤ u.loc →
        (close_upvalues upvVM 2).closedVals u.uvid = some (upvVM.mem u.loc))) :=
  ⟨by decide, by decide, c5_open_upvalues upvVM 2 2 (by decide) (by decide)⟩

/-- C6: OP_RETURN in a non-base frame pops the result, closes every open
upvalue at or above the frame base (each keeping its slot's last value),
drops the frame, restores the stack top to the frame base, pushes the
result there and resumes in the caller; returning from the base frame
pops once more and halts run() with INTERPRET_OK. -/
theorem c6_op_return (st : VMSt) (frame : CallFrame) (rest : List CallFrame)
    (hframes : st.frames = frame :: rest)
    (hsort : upvSorted st.openUpvalues)
    (hnodup : (st.openUpvalues.map (·.uvid)).Nodup) :
    (∀ f fs, rest = f :: fs → ∃ st',
      op_return st = some (.cont st') ∧
      st'.frames = rest ∧
      st'.top = frame.slots + 1 ∧
      st'.mem frame.slots = (stack_pop st).1 ∧
      st'.openUpvalues = st.openUpvalues.filter (fun u => decide (u.loc < frame.slots)) ∧
      (∀ u ∈ st.openUpvalues, frame.slots ≤ u.loc →
        st'.closedVals u.uvid = some (st.mem u.loc))) ∧
    (rest = [] → ∃ st',
      op_return st = some (.halt .intOk st') ∧
      st'.frames = [] ∧
      st'.top = st.top - 1 - 1 ∧
      st'.openUpvalues = st.openUpvalues.filter (fun u => decide (u.loc < frame.slots)) ∧
      (∀ u ∈ st.openUpvalues, frame.slots ≤ u.loc →
        st'.closedVals u.uvid = some (st.mem u.loc))) := by
  constructor
  · intro f fs hrest
    subst hrest
    have heq : op_return st = some (.cont (stack_push (stack_pop st).1
        { close_upvalues (stack_pop st).2 frame.slots with
          top := frame.slots, frames := f :: fs })) := by
      simp only [op_return, hframes]
    refine ⟨_, heq, rfl, rfl, ?_, ?_, ?_⟩
    · simp [stack_push]
    · exact close_list_fst st.mem frame.slots st.openUpvalues hsort
    · intro u hu hle
      exact close_upvalues_lookup (stack_pop st).2 frame.slots hsort hnodup u hu hle
  · intro hrest
    subst hrest
    have heq : op_return st = some (.halt .intOk
        { (stack_pop (close_upvalues (stack_pop st).2 frame.slots)).2 with
          frames := ([] : List CallFrame) }) := by
      simp only [op_return, hframes]
    refine ⟨_, heq, rfl, rfl, ?_, ?_⟩
    · exact close_list_fst st.mem frame.slots st.openUpvalues hsort
    · intro u hu hle
      exact close_upvalues_lookup (stack_pop st).2 frame.slots hsort hnodup u hu hle

theorem c6_op_return_witness :
    returnVM.frames = ⟨0, 5, 1⟩ :: [⟨0, 0, 0⟩] ∧
    upvSorted returnVM.openUpvalues ∧
    (returnVM.openUpvalues.map (·.uvid)).Nodup ∧
    ((∀ f fs, ([⟨0, 0, 0⟩] : List CallFrame) = f :: fs → ∃ st',
      op_return returnVM = some (.cont st') ∧
      st'.frames = [⟨0, 0, 0⟩] ∧
      st'.top = (⟨0, 5, 1⟩ : CallFrame).slots + 1 ∧
      st'.mem (⟨0, 5, 1⟩ : CallFrame).slots = (stack_pop returnVM).1 ∧
      st'.openUpvalues = returnVM.openUpvalues.filter
        (fun u => decide (u.loc < (⟨0, 5, 1⟩ : CallFrame).slots)) ∧
      (∀ u ∈ returnVM.openUpvalues, (⟨0, 5, 1⟩ : CallFrame).slots ≤ u.loc →
        st'.closedVals u.uvid = some (returnVM.mem u.loc))) ∧
    (([⟨0, 0, 0⟩] : List CallFrame) = [] → ∃ st',
      op_return returnVM = some (.halt .intOk st') ∧
      st'.frames = [] ∧
      st'.top = returnVM.top - 1 - 1 ∧
      st'.openUpvalues = returnVM.openUpvalues.filter
        (fun u => decide (u.loc < (⟨0, 5, 1⟩ : CallFrame).slots)) ∧
      (∀ u ∈ returnVM.openUpvalues, (⟨0, 5, 1⟩ : CallFrame).slots ≤ u.loc →
        st'.closedVals u.uvid = some (returnVM.mem u.loc)))) :=
  ⟨rfl, by decide, by decide,
    c6_op_return returnVM ⟨0, 5, 1⟩ [⟨0, 0, 0⟩] rfl (by decide) (by decide)⟩

/-! ### OP_CLOSURE: when the upvalue array gets populated (vm.c) -/

theorem getD_set_self_any {α : Type} {l : List α} {i : Nat} {a d : α} (h : i < l.length) :
    (l.set i a).getD i d = a := by
  simp [List.getD_eq_getElem?_getD, List.getElem?_set, h]

theorem getD_set_ne_any {α : Type} {l : List α} {i j : Nat} {a d : α} (h : i ≠ j) :
    (l.set i a).getD j d = l.getD j d := by
  simp [List.getD_eq_getElem?_getD, List.getElem?_set, h]

/-- Running the population loop: every processed index of the new
closure's array ends populated, the remaining ones keep their value, and
the enclosing closure's entry is untouched. -/
theorem closure_steps_spec (frame : CallFrame) (cid fnId encFn : Nat)
    (encUps : List (Option Nat)) (hencPop : ∀ u ∈ encUps, u.isSome = true) :
    ∀ (idxs : List (Nat × Bool × Nat)) (st : VMSt) (ups : List (Option Nat)),
      st.objs[cid]? = some (.hclosure fnId ups) →
      st.objs[frame.closure]? = some (.hclosure encFn encUps) →
      cid ≠ frame.closure →
      (∀ p ∈ idxs, p.2.1 = false → p.2.2 < encUps.length) →
      ∃ tr sF ups',
        closure_steps frame cid idxs st = some tr ∧
        (st :: tr).getLast? = some sF ∧
        sF.objs[cid]? = some (.hclosure fnId ups') ∧
        ups'.length = ups.length ∧
        (∀ j, j ∈ idxs.map Prod.fst → j < ups.length → (ups'.getD j none).isSome = true) ∧
        (∀ j, j ∉ idxs.map Prod.fst → ups'.getD j none = ups.getD j none)
  | [], st, ups, hcid, _, _, _ =>
    ⟨[], st, ups, rfl, rfl, hcid, rfl,
      fun j hj _ => absurd hj (by simp), fun _ _ => rfl⟩
  | (i, b, k) :: rest, st, ups, hcid, henc, hne, hidx => by
    have hlen : cid < st.objs.length := by
      by_contra h
      rw [List.getElem?_eq_none (by omega)] at hcid
      exact Option.noConfusion hcid
    by_cases hb : b = true
    · subst hb
      have hstep : closure_capture_step frame cid (i, true, k) st = some
          { (capture_upvalue st (frame.slots + (k : Int))).2 with
            objs := st.objs.set cid
              (.hclosure fnId (ups.set i (some (capture_upvalue st (frame.slots + (k : Int))).1))) } := by
        simp only [closure_capture_step, hcid]
        rfl
      have hcid' : (st.objs.set cid
          (HObj.hclosure fnId (ups.set i (some (capture_upvalue st (frame.slots + (k : Int))).1))))[cid]?
          = some (.hclosure fnId (ups.set i (some (capture_upvalue st (frame.slots + (k : Int))).1))) := by
        simp [List.getElem?_set, hlen]
      have henc' : (st.objs.set cid
          (HObj.hclosure fnId (ups.set i (some (capture_upvalue st (frame.slots + (k : Int))).1))))[frame.closure]?
          = some (.hclosure encFn encUps) := by
        rw [List.getElem?_set]
        simp [hne, henc]
      obtain ⟨tr', sF, ups', htr', hlast, hfcid, hflen, hfill, hunch⟩ :=
        closure_steps_spec frame cid fnId encFn encUps hencPop rest
          { (capture_upvalue st (frame.slots + (k : Int))).2 with
            objs := (st.objs.set cid
              (.hclosure fnId (ups.set i (some (capture_upvalue st (frame.slots + (k : Int))).1)))) }
          (ups.set i (some (capture_upvalue st (frame.slots + (k : Int))).1))
          hcid' henc' hne (fun p hp => hidx p (List.mem_cons_of_mem _ hp))
      refine ⟨{ (capture_upvalue st (frame.slots + (k : Int))).2 with
          objs := (st.objs.set cid
            (.hclosure fnId (ups.set i (some (capture_upvalue st (frame.slots + (k : Int))).1)))) }
        :: tr', sF, ups', ?_, ?_, hfcid, ?_, ?_, ?_⟩
      · simp only [closure_steps, hstep, htr']
      · rw [List.getLast?_cons_cons]
        exact hlast
      · rw [hflen, List.length_set]
      · intro j hj hjlt
        by_cases hr : j ∈ rest.map Prod.fst
        · exact hfill j hr (by rw [List.length_set]; exact hjlt)
        · have hji : j = i := by
            rw [List.map_cons] at hj
            rcases List.mem_cons.mp hj with h | h
            · exact h
            · exact absurd h hr
          subst hji
          rw [hunch j hr, getD_set_self_any hjlt]
          rfl
      · intro j hj
        have hji : j ≠ i := fun h => hj (by simp [h])
        have hjr : j ∉ rest.map Prod.fst := fun h => hj (by simp [h])
        rw [hunch j hjr, getD_set_ne_any (Ne.symm hji)]
    · have hb' : b = false := by
        cases b
        · rfl
        · exact absurd rfl hb
      subst hb'
      have hk : k < encUps.length := hidx (i, false, k) (List.mem_cons_self _ _) rfl
      have hvmem : encUps.getD k none ∈ encUps := by
        simp only [List.getD_eq_getElem?_getD, List.getElem?_eq_getElem hk, Option.getD_some]
        exact List.getElem_mem hk
      have hvsome : (encUps.getD k none).isSome = true := hencPop _ hvmem
      have hstep : closure_capture_step frame cid (i, false, k) st = some
          { st with objs := (st.objs.set cid
            (.hclosure fnId (ups.set i (encUps.getD k none)))) } := by
        simp only [closure_capture_step, hcid, henc]
        rfl
      have hcid' : (st.objs.set cid
          (HObj.hclosure fnId (ups.set i (encUps.getD k none))))[cid]?
          = some (.hclosure fnId (ups.set i (encUps.getD k none))) := by
        simp [List.getElem?_set, hlen]
      have henc' : (st.objs.set cid
          (HObj.hclosure fnId (ups.set i (encUps.getD k none))))[frame.closure]?
          = some (.hclosure encFn encUps) := by
        rw [List.getElem?_set]
        simp [hne, henc]
      obtain ⟨tr', sF, ups', htr', hlast, hfcid, hflen, hfill, hunch⟩ :=
        closure_steps_spec frame cid fnId encFn encUps hencPop rest
          { st with objs := (st.objs.set cid
              (.hclosure fnId (ups.set i (encUps.getD k none)))) }
          (ups.set i (encUps.getD k none))
          hcid' henc' hne (fun p hp => hidx p (List.mem_cons_of_mem _ hp))
      refine ⟨{ st with objs := (st.objs.set cid
            (.hclosure fnId (ups.set i (encUps.getD k none)))) }
        :: tr', sF, ups', ?_, ?_, hfcid, ?_, ?_, ?_⟩
      · simp only [closure_steps, hstep, htr']
      · rw [List.getLast?_cons_cons]
        exact hlast
      · rw [hflen, List.length_set]
      · intro j hj hjlt
        by_cases hr : j ∈ rest.map Prod.fst
        · exact hfill j hr (by rw [List.length_set]; exact hjlt)
        · have hji : j = i := by
            rw [List.map_cons] at hj
            rcases List.mem_cons.mp hj with h | h
            · exact h
            · exact absurd h hr
          subst hji
          rw [hunch j hr, getD_set_self_any hjlt]
          exact hvsome
      · intro j hj
        have hji : j ≠ i := fun h => hj (by simp [h])
        have hjr : j ∉ rest.map Prod.fst := fun h => hj (by simp [h])
        rw [hunch j hjr, getD_set_ne_any (Ne.symm hji)]

/-- C4 (counterexample): OP_CLOSURE over a one-upvalue function pushes
the closure before populating its array; at the state right after the
push the closure is reachable from the value stack while its upvalue
array still holds NULL. -/
theorem c4_closure_counterexample :
    ∃ cid tr, op_closure_trace closureCaptureVM ⟨1, 0, 0⟩ 0 [(true, 1)] = some (cid, tr) ∧
      ¬ (∀ s ∈ tr, closureStackReachable cid s → closureFullyPopulated cid s) := by
  refine ⟨2, _, rfl, fun hall => ?_⟩
  have hs := hall _ (List.mem_cons_of_mem _ (List.mem_cons_self _ _))
  have hpop := hs ⟨2, by decide, by decide, by decide⟩ 0 [none] rfl
  simpa using hpop none (List.mem_singleton_self none)

/-- C4 (amended): new_closure null-initialises every upvalue entry, so
the array holds NULLs (not garbage) when the closure is pushed; the
closure is reachable from the value stack from the push on, before the
array is populated; and by the end of the OP_CLOSURE handler every entry
is populated, given that the instruction stream carries one (is_local,
index) pair per upvalue and the enclosing closure's own array is fully
populated with in-bounds inherited indices. -/
theorem c4_closure_amended (st : VMSt) (frame : CallFrame) (funConst : Nat)
    (meta : List (Bool × Nat)) (arity upc encFn : Nat) (encUps : List (Option Nat))
    (htop : 0 ≤ st.top)
    (hfn : st.objs[funConst]? = some (.hfun arity upc))
    (henc : st.objs[frame.closure]? = some (.hclosure encFn encUps))
    (hencPop : ∀ u ∈ encUps, u.isSome = true)
    (hmetaLen : meta.length = upc)
    (hmetaIdx : ∀ m ∈ meta, m.1 = false → m.2 < encUps.length) :
    ∃ tr s1 s2 sF ups,
      op_closure_trace st frame funConst meta = some (st.objs.length, tr) ∧
      tr.head? = some s1 ∧
      s1.objs[st.objs.length]? = some (.hclosure funConst (List.replicate upc none)) ∧
      s1.top = st.top ∧
      tr[1]? = some s2 ∧
      s2.top = st.top + 1 ∧
      closureStackReachable st.objs.length s2 ∧
      tr.getLast? = some sF ∧
      sF.objs[st.objs.length]? = some (.hclosure funConst ups) ∧
      ups.length = upc ∧
      (∀ u ∈ ups, u.isSome = true) := by
  have hclt : frame.closure < st.objs.length := by
    by_contra h
    rw [List.getElem?_eq_none (by omega)] at henc
    exact Option.noConfusion henc
  have hcid2 : (stack_push (.vobj st.objs.length)
      { st with objs := st.objs ++ [.hclosure funConst (List.replicate upc none)] }).objs[st.objs.length]?
      = some (.hclosure funConst (List.replicate upc none)) := by
    show (st.objs ++ [HObj.hclosure funConst (List.replicate upc none)])[st.objs.length]? = _
    exact List.getElem?_concat_length _ _
  have henc2 : (stack_push (.vobj st.objs.length)
      { st with objs := st.objs ++ [.hclosure funConst (List.replicate upc none)] }).objs[frame.closure]?
      = some (.hclosure encFn encUps) := by
    show (st.objs ++ [HObj.hclosure funConst (List.replicate upc none)])[frame.closure]? = _
    rw [List.getElem?_append_left hclt]
    exact henc
  have hidx' : ∀ p ∈ (List.range upc).map (fun i => (i, meta.getD i (false, 0))),
      p.2.1 = false → p.2.2 < encUps.length := by
    intro p hp hfalse
    obtain ⟨i, hi, rfl⟩ := List.mem_map.mp hp
    have hilt : i < meta.length := by
      rw [hmetaLen]
      exact List.mem_range.mp hi
    have hmem : meta.getD i (false, 0) ∈ meta := by
      simp only [List.getD_eq_getElem?_getD, List.getElem?_eq_getElem hilt, Option.getD_some]
      exact List.getElem_mem hilt
    exact hmetaIdx _ hmem hfalse
  obtain ⟨tr', sF, ups', htr', hlast, hfcid, hflen, hfill, hunch⟩ :=
    closure_steps_spec frame st.objs.length funConst encFn encUps hencPop
      ((List.range upc).map (fun i => (i, meta.getD i (false, 0))))
      (stack_push (.vobj st.objs.length)
        { st with objs := st.objs ++ [.hclosure funConst (List.replicate upc none)] })
      (List.replicate upc none)
      hcid2 henc2 (by omega) hidx'
  have heq : op_closure_trace st frame funConst meta = some (st.objs.length,
      { st with objs := st.objs ++ [.hclosure funConst (List.replicate upc none)] }
      :: stack_push (.vobj st.objs.length)
        { st with objs := st.objs ++ [.hclosure funConst (List.replicate upc none)] }
      :: tr') := by
    simp only [op_closure_trace, hfn, htr']
  refine ⟨{ st with objs := st.objs ++ [.hclosure funConst (List.replicate upc none)] }
      :: stack_push (.vobj st.objs.length)
        { st with objs := st.objs ++ [.hclosure funConst (List.replicate upc none)] }
      :: tr',
    { st with objs := st.objs ++ [.hclosure funConst (List.replicate upc none)] },
    stack_push (.vobj st.objs.length)
      { st with objs := st.objs ++ [.hclosure funConst (List.replicate upc none)] },
    sF, ups', heq, rfl, ?_, rfl, ?_, rfl, ?_, ?_, hfcid, ?_, ?_⟩
  · show (st.objs ++ [HObj.hclosure funConst (List.replicate upc none)])[st.objs.length]? = _
    exact List.getElem?_concat_length _ _
  · rw [List.getElem?_cons_succ, List.getElem?_cons_zero]
  · refine ⟨st.top, htop, by show st.top < st.top + 1; omega, ?_⟩
    show (if st.top = st.top then Value.vobj st.objs.length else st.mem st.top) = _
    rw [if_pos rfl]
  · rw [List.getLast?_cons_cons]
    exact hlast
  · rw [hflen, List.length_replicate]
  · intro u hu
    obtain ⟨j, hjlt, rfl⟩ := List.mem_iff_getElem.mp hu
    have hj2 : j < upc := by
      rw [hflen, List.length_replicate] at hjlt
      exact hjlt
    have hmf : ((List.range upc).map (fun i => (i, meta.getD i (false, 0)))).map Prod.fst
        = List.range upc := by
      rw [List.map_map]
      exact List.map_id _
    have hfj := hfill j (by rw [hmf]; exact List.mem_range.mpr hj2)
      (by rw [List.length_replicate]; exact hj2)
    rwa [List.getD_eq_getElem?_getD, List.getElem?_eq_getElem hjlt, Option.getD_some] at hfj

theorem c4_closure_amended_witness :
    0 ≤ closureCaptureVM.top ∧
    closureCaptureVM.objs[0]? = some (.hfun 0 1) ∧
    closureCaptureVM.objs[(⟨1, 0, 0⟩ : CallFrame).closure]? = some (.hclosure 0 []) ∧
    ([((true : Bool), 1)].length = 1) ∧
    (∃ tr s1 s2 sF ups,
      op_closure_trace closureCaptureVM ⟨1, 0, 0⟩ 0 [(true, 1)]
        = some (closureCaptureVM.objs.length, tr) ∧
      tr.head? = some s1 ∧
      s1.objs[closureCaptureVM.objs.length]? = some (.hclosure 0 (List.replicate 1 none)) ∧
      s1.top = closureCaptureVM.top ∧
      tr[1]? = some s2 ∧
      s2.top = closureCaptureVM.top + 1 ∧
      closureStackReachable closureCaptureVM.objs.length s2 ∧
      tr.getLast? = some sF ∧
      sF.objs[closureCaptureVM.objs.length]? = some (.hclosure 0 ups) ∧
      ups.length = 1 ∧
      (∀ u ∈ ups, u.isSome = true)) :=
  ⟨by decide, rfl, rfl, rfl,
    c4_closure_amended closureCaptureVM ⟨1, 0, 0⟩ 0 [(true, 1)] 0 1 0 []
      (by decide) rfl rfl (by simp) rfl (by decide)⟩

/-! ### C1: the and_ rule sits on the NUMBER row -/

/-- C1: `a and b` is claimed to compile to a JUMP_IF_FALSE short-circuit;
in the source the rules row for TOKEN_AND is {NULL, NULL, PREC_NONE}
while the and_ infix rule (with PREC_AND) sits on the TOKEN_NUMBER row,
so parse_precedence never enters its loop on `and`: the expression ends
after `a`, the expected `;` is not found, the compile fails with
had_error set, and no JUMP_IF_FALSE is emitted. -/
theorem c1_and_rule_misplaced :
    (rules .tAnd).infixFn = none ∧
    (rules .tAnd).precedence = PREC_NONE ∧
    (rules .tNumber).infixFn = some .pAnd ∧
    (rules .tNumber).precedence = PREC_AND ∧
    ∃ p', expression_statement 10 andProgStart = some p' ∧
      p'.hadError = true ∧
      (CByte.op .opJumpIfFalse) ∉ p'.code ∧
      p'.code = [.op .opGetGlobal, .arg 0, .op .opPop] := by
  refine ⟨rfl, rfl, rfl, rfl, _, rfl, ?_, ?_, ?_⟩ <;> decide

end CLox
